import Mathlib

/-!
# RAM assume-role policy equivalence

A shallow embedding of the Go package `rampolicyequivalence`
(`role_AssumeRolePolicyDocument_equivalence.go` and
`role_AssumeRolePolicyDocument_equivalence_v2.go`) and theorems about it.

Conventions of the embedding.

* A Go `interface{}` is a `Value`: the dynamic type is the constructor.
* A Go map is the list of its entries, in the order in which a `range` loop
  visits them; `none` is the nil map.  Go maps have pairwise distinct keys, so
  `len` is the length of the list.  The functions do not require distinct keys;
  theorems that need them say so.
* A function that can stop with a run-time panic (failed type assertion, index
  out of range, nil dereference) returns an `Option`; `none` is the panic.
* A Go `error` is an `Option String`: `none` is the nil error, `some msg` an
  error with that message.
* `strings.ToUpper` is a parameter `ToUpper : String → String`; theorems hold
  for every such function, `asciiUpper` is used to run examples.
* `json.Unmarshal` is outside the embedding: the entry points start from the
  two decoded policies.
* The decoder of the library `mapstructure`, which `document` calls on an array
  of statements, is a parameter `decode`; theorems hold for every such function.
-/

namespace RamPolicyEquivalence

/-! ## Data model -/

/-- Dynamic value held by a Go `interface{}` in this program.  `null` is the nil
interface.  `encoding/json` decodes into `null`, `bool`, `num` (a `float64`,
which the program never inspects, carried as an integer code), `str`, `arr`
(`[]interface{}`) and `obj` (`map[string]interface{}`); `strs` is a `[]string`,
which only `normalizePrincipal` creates. -/
inductive Value where
  | null : Value
  | bool (b : Bool) : Value
  | num (n : Int) : Value
  | str (s : String) : Value
  | arr (xs : List Value) : Value
  | obj (kvs : List (String × Value)) : Value
  | strs (ss : List String) : Value

/-- Go type `PrincipalMap`, a `map[string]interface{}`; `none` is the nil map. -/
abbrev PrincipalMap := Option (List (String × Value))

/-- Go type `ConditionMap`, a `map[string]map[string]interface{}`; `none` is the
nil map, at either level. -/
abbrev ConditionMap := Option (List (String × Option (List (String × Value))))

/-- Go struct `Statement`. -/
structure Statement where
  Action : Value
  NotAction : Value
  Effect : String
  Principal : PrincipalMap
  Condition : ConditionMap

/-- Go struct `Policy`; `Statement` is a slice, `none` the nil slice. -/
structure Policy where
  Version : String
  Statement : Option (List Statement)

/-- Go struct `policyStatementACS`. -/
structure policyStatementACS where
  Effect : String
  Action : Value
  NotAction : Value
  Principal : PrincipalMap
  Condition : ConditionMap

/-- Go struct `policyACS`; `Statement` is a slice of pointers, `none` a nil
pointer. -/
structure policyACS where
  Version : String
  Statement : List (Option policyStatementACS)

/-- Go struct `intermediatePolicyACS`: the Statement field is an `interface{}`. -/
structure intermediatePolicyACS where
  Version : String
  Statement : Value

/-! ## Go primitives -/

/-- Go map index expression `m[key]`: the value stored under `key`, or `zero`
(the zero value of the element type) when there is none. -/
def mapIndex {β : Type} (zero : β) : List (String × β) → String → β
  | [], _ => zero
  | (k, v) :: rest, key => if k = key then v else mapIndex zero rest key

/-- Go two-result map lookup: `some v` when `key` is present. -/
def mapLookup {β : Type} : List (String × β) → String → Option β
  | [], _ => none
  | (k, v) :: rest, key => if k = key then some v else mapLookup rest key

/-- Go map assignment `m[key] = v`. -/
def mapAssign {β : Type} : List (String × β) → String → β → List (String × β)
  | [], key, v => [(key, v)]
  | (k, w) :: rest, key, v =>
    if k = key then (key, v) :: rest else (k, w) :: mapAssign rest key v

/-- Go short-circuit `x && y` when evaluating an operand may panic. -/
def andAlso (x y : Option Bool) : Option Bool :=
  match x with
  | some true => y
  | some false => some false
  | none => none

/-- Loop `for _, x := range xs { if !check(x) { return false } }; return true`. -/
def rangeAll {α : Type} (check : α → Option Bool) : List α → Option Bool
  | [] => some true
  | x :: rest =>
    match check x with
    | some true => rangeAll check rest
    | r => r

/-- Conversion of a `map[string]interface{}` to `interface{}`.  A nil map gives
a non-nil interface whose dynamic type is still the map type; `compareValues`
only takes `len` of it, ranges over it and indexes it, which a nil map and an
empty map answer alike. -/
def boxMap : Option (List (String × Value)) → Value
  | none => Value.obj []
  | some m => Value.obj m

/-- ASCII upper-casing, which is what `strings.ToUpper` does on ASCII text. -/
def asciiUpper (s : String) : String := String.mk (s.data.map Char.toUpper)

/-! ## Value comparator (`role_AssumeRolePolicyDocument_equivalence_v2.go`) -/

/-- Go `equalStrings`: indexes `b[i]` for every index of `a`. -/
def equalStrings : List String → List String → Option Bool
  | [], _ => some true
  | _ :: _, [] => none
  | x :: xs, y :: ys => if x ≠ y then some false else equalStrings xs ys

mutual
/-- Go `compareValues`.  In the `[]interface{}` case the body of the callee
`equalInterfaces` is written out, so that the recursion is structural;
`compareValues_arr` below states the case as the call. -/
def compareValues : Value → Value → Option Bool
  | .str a, b =>
    match b with
    | .str bStr => some (decide (a = bStr))
    | _ => some false
  | .strs a, b =>
    match b with
    | .strs bArr => if a.length = bArr.length then equalStrings a bArr else some false
    | _ => some false
  | .arr a, b =>
    match b with
    | .arr bArr =>
      if a.length = bArr.length then
        (if a.length ≠ bArr.length then some false else equalInterfacesRange a bArr)
      else some false
    | _ => some false
  | .obj a, b =>
    match b with
    | .obj bMap => if a.length ≠ bMap.length then some false else compareValuesRange a bMap
    | _ => some false
  | _, _ => some false
/-- Loop of `equalInterfaces`: `compareValues(v, b[i])` for every index of `a`. -/
def equalInterfacesRange : List Value → List Value → Option Bool
  | [], _ => some true
  | _ :: _, [] => none
  | v :: vs, w :: ws =>
    match compareValues v w with
    | some true => equalInterfacesRange vs ws
    | r => r
/-- Loop of the map case of `compareValues`: `compareValues(value, bMap[key])`
for every entry of `a`. -/
def compareValuesRange : List (String × Value) → List (String × Value) → Option Bool
  | [], _ => some true
  | (key, value) :: rest, bMap =>
    match compareValues value (mapIndex Value.null bMap key) with
    | some true => compareValuesRange rest bMap
    | r => r
end

/-- Go `equalInterfaces`. -/
def equalInterfaces (a b : List Value) : Option Bool :=
  if a.length ≠ b.length then some false else equalInterfacesRange a b


/-- Go `equalActionOrNotAction`.  The loop of the `[]string` case is the loop of
`equalStrings`. -/
def equalActionOrNotAction (a b : Value) : Option Bool :=
  match a with
  | .null =>
    match b with
    | .null => some true
    | _ => some false
  | .str aTyped =>
    match b with
    | .str bTyped => some (decide (aTyped = bTyped))
    | _ => some false
  | .strs aTyped =>
    match b with
    | .strs bTyped => if aTyped.length = bTyped.length then equalStrings aTyped bTyped else some false
    | _ => some false
  | _ => some false

/-- Go `PrincipalMap.Equals`. -/
def PrincipalMap.Equals (pm other : PrincipalMap) : Option Bool :=
  if (pm.getD []).length ≠ (other.getD []).length then some false
  else rangeAll (fun kv => compareValues kv.2 (mapIndex Value.null (other.getD []) kv.1)) (pm.getD [])

/-- Go `ConditionMap.Equals`. -/
def ConditionMap.Equals (cm other : ConditionMap) : Option Bool :=
  match cm with
  | none => some other.isNone
  | some entries =>
    if entries.length ≠ (other.getD []).length then some false
    else rangeAll (fun kv => compareValues (boxMap kv.2) (boxMap (mapIndex none (other.getD []) kv.1))) entries

/-! ## Principal normalizer (`role_AssumeRolePolicyDocument_equivalence.go`) -/

/-- Go `validPrincipalKeys`. -/
def validPrincipalKeys : List String := ["RAM", "SERVICE", "FEDERATED"]

/-- Go `isValidPrincipalKey`. -/
def isValidPrincipalKey (key : String) : Bool :=
  validPrincipalKeys.any (fun validKey => decide (key = validKey))

/-- Inner loop of `normalizePrincipal`: `strArray[i] = val.(string)`; the type
assertion panics on an element that is not a string. -/
def toStringArray : List Value → Option (List String)
  | [] => some []
  | .str s :: rest =>
    match toStringArray rest with
    | some strArray => some (s :: strArray)
    | none => none
  | _ :: _ => none

/-- Range loop of `normalizePrincipal` over the entries still to visit, with
`newPrincipal` as built so far: `some (.ok m)` when the loop ends with
`newPrincipal = m`, `some (.error msg)` at an early `return`, `none` at a
panic. -/
def normalizePrincipalRange (ToUpper : String → String) :
    List (String × Value) → List (String × Value) → Option (Except String (List (String × Value)))
  | [], newPrincipal => some (.ok newPrincipal)
  | (k, v) :: rest, newPrincipal =>
    if !isValidPrincipalKey (ToUpper k) then
      some (.error ("Invalid principal key: " ++ ToUpper k))
    else
      match v with
      | .str s =>
        normalizePrincipalRange ToUpper rest (mapAssign newPrincipal (ToUpper k) (.strs [s]))
      | .arr xs =>
        match toStringArray xs with
        | none => none
        | some strArray =>
          normalizePrincipalRange ToUpper rest (mapAssign newPrincipal (ToUpper k) (.strs strArray))
      | _ => some (.error ("Invalid principal key-value pair, key: " ++ k))

/-- Go `normalizePrincipal(principal *PrincipalMap) error`, as a function from
the map `*principal` before the call to the pair of the map after the call and
the error returned. -/
def normalizePrincipal (ToUpper : String → String) (principal : PrincipalMap) :
    Option (PrincipalMap × Option String) :=
  match normalizePrincipalRange ToUpper (principal.getD []) [] with
  | none => none
  | some (.error msg) => some (principal, some msg)
  | some (.ok newPrincipal) => some (some newPrincipal, none)

/-! ## Statement and policy equality -/

/-- Go `Statement.Equals`. -/
def Statement.Equals (s other : Statement) : Option Bool :=
  andAlso (equalActionOrNotAction s.Action other.Action)
    (andAlso (equalActionOrNotAction s.NotAction other.NotAction)
      (andAlso (some (decide (s.Effect = other.Effect)))
        (andAlso (PrincipalMap.Equals s.Principal other.Principal)
          (ConditionMap.Equals s.Condition other.Condition))))

/-- Loop of `Policy.Equals`: `p.Statement[i].Equals(other.Statement[i])` for
every index of `p.Statement`. -/
def Policy.EqualsRange :
    List RamPolicyEquivalence.Statement → List RamPolicyEquivalence.Statement → Option Bool
  | [], _ => some true
  | _ :: _, [] => none
  | s :: ss, t :: ts =>
    match Statement.Equals s t with
    | some true => Policy.EqualsRange ss ts
    | r => r

/-- Go `Policy.Equals`. -/
def Policy.Equals (p other : Policy) : Option Bool :=
  if p.Version ≠ other.Version ∨ (p.Statement.getD []).length ≠ (other.Statement.getD []).length then
    some false
  else Policy.EqualsRange (p.Statement.getD []) (other.Statement.getD [])

/-- Go `policyStatementACS.Equals`, on two pointers. -/
def policyStatementACS.Equals : Option policyStatementACS → Option policyStatementACS → Option Bool
  | some s, some other =>
    andAlso (equalActionOrNotAction s.Action other.Action)
      (andAlso (equalActionOrNotAction s.NotAction other.NotAction)
        (andAlso (some (decide (s.Effect = other.Effect)))
          (andAlso (PrincipalMap.Equals s.Principal other.Principal)
            (ConditionMap.Equals s.Condition other.Condition))))
  | _, _ => none

/-- Loop of `policyACS.Equals`. -/
def policyACS.EqualsRange :
    List (Option policyStatementACS) → List (Option policyStatementACS) → Option Bool
  | [], _ => some true
  | _ :: _, [] => none
  | s :: ss, t :: ts =>
    match policyStatementACS.Equals s t with
    | some true => policyACS.EqualsRange ss ts
    | r => r

/-- Go `policyACS.Equals`. -/
def policyACS.Equals (p other : policyACS) : Option Bool :=
  if p.Version ≠ other.Version ∨ p.Statement.length ≠ other.Statement.length then some false
  else policyACS.EqualsRange p.Statement other.Statement

/-- Go `intermediatePolicyACS.document`.  The parameter `decode` stands for the
decoder of the library `mapstructure` (`NewDecoder` with `ErrorUnused`, then
`Decode`) on a `[]interface{}`: an error, or the decoded slice of pointers. -/
def intermediatePolicyACS.document
    (decode : List Value → Except String (List (Option policyStatementACS)))
    (intermediate : intermediatePolicyACS) : Except String policyACS :=
  match intermediate.Statement with
  | .null => .ok { Version := intermediate.Version, Statement := [] }
  | .arr s =>
    match decode s with
    | .error err => .error err
    | .ok statement => .ok { Version := intermediate.Version, Statement := statement }
  | _ => .error "unknown statement parsing problem"

/-! ## `reflect.DeepEqual` on the types of this program -/

mutual
/-- Go `reflect.DeepEqual` on two `interface{}` values: same dynamic type and
deeply equal contents. -/
def deepEqualValue : Value → Value → Bool
  | .null, b =>
    match b with
    | .null => true
    | _ => false
  | .bool x, b =>
    match b with
    | .bool y => decide (x = y)
    | _ => false
  | .num x, b =>
    match b with
    | .num y => decide (x = y)
    | _ => false
  | .str x, b =>
    match b with
    | .str y => decide (x = y)
    | _ => false
  | .strs x, b =>
    match b with
    | .strs y => decide (x = y)
    | _ => false
  | .arr x, b =>
    match b with
    | .arr y => deepEqualSlice x y
    | _ => false
  | .obj x, b =>
    match b with
    | .obj y => decide (x.length = y.length) && deepEqualRange x y
    | _ => false
/-- Slices of `interface{}`: same length and deeply equal elements. -/
def deepEqualSlice : List Value → List Value → Bool
  | [], b =>
    match b with
    | [] => true
    | _ :: _ => false
  | x :: xs, b =>
    match b with
    | [] => false
    | y :: ys => deepEqualValue x y && deepEqualSlice xs ys
/-- Map entries: every key of the first map is in the second, with a deeply
equal value. -/
def deepEqualRange : List (String × Value) → List (String × Value) → Bool
  | [], _ => true
  | (k, v) :: rest, b =>
    (match mapLookup b k with
      | none => false
      | some w => deepEqualValue v w) && deepEqualRange rest b
end

/-- Go `reflect.DeepEqual` on two maps with string keys: both nil or both
non-nil, same length, and every key of the first in the second with a deeply
equal value. -/
def deepEqualMap {β : Type} (eq : β → β → Bool) :
    Option (List (String × β)) → Option (List (String × β)) → Bool
  | none, none => true
  | some a, some b =>
    decide (a.length = b.length) &&
      a.all (fun kv =>
        match mapLookup b kv.1 with
        | none => false
        | some w => eq kv.2 w)
  | _, _ => false

/-- Go `reflect.DeepEqual` on two `Statement` structs: field by field. -/
def deepEqualStatement (s t : Statement) : Bool :=
  deepEqualValue s.Action t.Action && deepEqualValue s.NotAction t.NotAction &&
    decide (s.Effect = t.Effect) && deepEqualMap deepEqualValue s.Principal t.Principal &&
    deepEqualMap (deepEqualMap deepEqualValue) s.Condition t.Condition

/-- Element loop of `reflect.DeepEqual` on two slices of `Statement`. -/
def deepEqualStatements : List Statement → List Statement → Bool
  | [], [] => true
  | s :: ss, t :: ts => deepEqualStatement s t && deepEqualStatements ss ts
  | _, _ => false

/-- Go `reflect.DeepEqual(p1, p2)` on two `Policy` structs. -/
def deepEqualPolicy (p1 p2 : Policy) : Bool :=
  decide (p1.Version = p2.Version) &&
    (match p1.Statement, p2.Statement with
      | none, none => true
      | some a, some b => deepEqualStatements a b
      | _, _ => false)

/-- Go `reflect.DeepEqual` on two `intermediatePolicyACS` structs. -/
def deepEqualIntermediate (a b : intermediatePolicyACS) : Bool :=
  decide (a.Version = b.Version) && deepEqualValue a.Statement b.Statement

/-! ## Entry point (`role_AssumeRolePolicyDocument_equivalence.go`) -/

/-- Loop `for i := range p.Statement` of `AssumeRolePolicyDocumentAreEquivalent`
that normalizes the principal of every statement in place: `some (.ok ss)` with
the statements after the loop, `some (.error msg)` at the first error returned
by `normalizePrincipal`, `none` at a panic. -/
def normalizeStatements (ToUpper : String → String) :
    List Statement → Option (Except String (List Statement))
  | [] => some (.ok [])
  | s :: rest =>
    match normalizePrincipal ToUpper s.Principal with
    | none => none
    | some (_, some msg) => some (.error msg)
    | some (principal, none) =>
      match normalizeStatements ToUpper rest with
      | none => none
      | some (.error msg) => some (.error msg)
      | some (.ok rest1) => some (.ok ({ s with Principal := principal } :: rest1))

/-- Go `AssumeRolePolicyDocumentAreEquivalent`, from the two decoded policies on:
the pair `(bool, error)` returned, `none` at a panic. -/
def AssumeRolePolicyDocumentAreEquivalent (ToUpper : String → String) (p1 p2 : Policy) :
    Option (Bool × Option String) :=
  if deepEqualPolicy p1 p2 then some (true, none)
  else
    match normalizeStatements ToUpper (p1.Statement.getD []) with
    | none => none
    | some (.error msg) => some (false, some msg)
    | some (.ok ss1) =>
      match normalizeStatements ToUpper (p2.Statement.getD []) with
      | none => none
      | some (.error msg) => some (false, some msg)
      | some (.ok ss2) =>
        match Policy.Equals { p1 with Statement := p1.Statement.map (fun _ => ss1) }
            { p2 with Statement := p2.Statement.map (fun _ => ss2) } with
        | none => none
        | some b => some (b, none)

/-- The steps of `AssumeRolePolicyDocumentAreEquivalent` after the
`reflect.DeepEqual` check (lines 64 to 81): both normalization loops, then
`Policy.Equals`. -/
def remainingSteps (ToUpper : String → String) (p1 p2 : Policy) :
    Option (Bool × Option String) :=
  match normalizeStatements ToUpper (p1.Statement.getD []) with
  | none => none
  | some (.error msg) => some (false, some msg)
  | some (.ok ss1) =>
    match normalizeStatements ToUpper (p2.Statement.getD []) with
    | none => none
    | some (.error msg) => some (false, some msg)
    | some (.ok ss2) =>
      match Policy.Equals { p1 with Statement := p1.Statement.map (fun _ => ss1) }
          { p2 with Statement := p2.Statement.map (fun _ => ss2) } with
      | none => none
      | some b => some (b, none)

/-! ## Entry point (`role_AssumeRolePolicyDocument_equivalence_v2.go`) -/

/-- Loop `for i := range policyACS.Statement` of
`AssumeRolePolicyDocumentAreEquivalentV2`; taking the address of the Principal
field of a nil pointer panics. -/
def normalizeStatementsACS (ToUpper : String → String) :
    List (Option policyStatementACS) →
      Option (Except String (List (Option policyStatementACS)))
  | [] => some (.ok [])
  | none :: _ => none
  | some s :: rest =>
    match normalizePrincipal ToUpper s.Principal with
    | none => none
    | some (_, some msg) => some (.error msg)
    | some (principal, none) =>
      match normalizeStatementsACS ToUpper rest with
      | none => none
      | some (.error msg) => some (.error msg)
      | some (.ok rest1) => some (.ok (some { s with Principal := principal } :: rest1))

/-- Go `AssumeRolePolicyDocumentAreEquivalentV2`, from the two decoded
`intermediatePolicyACS` values on. -/
def AssumeRolePolicyDocumentAreEquivalentV2 (ToUpper : String → String)
    (decode : List Value → Except String (List (Option policyStatementACS)))
    (policy1intermediate policy2intermediate : intermediatePolicyACS) :
    Option (Bool × Option String) :=
  if deepEqualIntermediate policy1intermediate policy2intermediate then some (true, none)
  else
    match policy1intermediate.document decode with
    | .error err => some (false, some ("parsing policy 1: " ++ err))
    | .ok policy1ACS =>
      match policy2intermediate.document decode with
      | .error err => some (false, some ("parsing policy 2: " ++ err))
      | .ok policy2ACS =>
        match normalizeStatementsACS ToUpper policy1ACS.Statement with
        | none => none
        | some (.error msg) => some (false, some msg)
        | some (.ok ss1) =>
          match normalizeStatementsACS ToUpper policy2ACS.Statement with
          | none => none
          | some (.error msg) => some (false, some msg)
          | some (.ok ss2) =>
            match policyACS.Equals { policy1ACS with Statement := ss1 }
                { policy2ACS with Statement := ss2 } with
            | none => none
            | some b => some (b, none)

/-! ## Example inputs -/

/-- Statement with effect Allow, the given principal entries and action, no
NotAction and no Condition. -/
def exStmt (principal : List (String × Value)) (action : Value) : Statement :=
  { Action := action, NotAction := .null, Effect := "Allow",
    Principal := some principal, Condition := none }

/-- Statement with effect Allow, the given principal entries, action and
Condition, and no NotAction. -/
def exStmtWith (principal : List (String × Value)) (action : Value)
    (condition : ConditionMap) : Statement :=
  { Action := action, NotAction := .null, Effect := "Allow",
    Principal := some principal, Condition := condition }

/-! ## Predicates used in the statements -/

/-- Every value of the map is a `[]string`. -/
def AllStrs (m : List (String × Value)) : Prop := ∀ kv ∈ m, ∃ ss, kv.2 = Value.strs ss

/-- The entry that the loop of `normalizePrincipal` stores for an entry it
accepts: the upper-cased key with the `[]string` made from the value. -/
def normalizedEntry (ToUpper : String → String) (kv : String × Value) : String × Value :=
  (ToUpper kv.1,
    match kv.2 with
    | .str s => .strs [s]
    | .arr xs => .strs ((toStringArray xs).getD [])
    | v => v)

/-- A principal value of one of the two shapes that `normalizePrincipal` turns
into a `[]string`: a string, or an array whose elements are all strings. -/
def IsStringOrStrings (v : Value) : Prop :=
  (∃ s, v = Value.str s) ∨ ∃ ss : List String, v = Value.arr (ss.map Value.str)

/-- A principal map of the plain kind: no two keys share an upper-cased form, every upper-cased key is RAM, SERVICE or FEDERATED,
and every value is a string or an array of strings. -/
def PlainPrincipal (ToUpper : String → String) (m : PrincipalMap) : Prop :=
  ((m.getD []).map (fun kv => ToUpper kv.1)).Nodup ∧
    ∀ kv ∈ m.getD [], isValidPrincipalKey (ToUpper kv.1) = true ∧ IsStringOrStrings kv.2

/-- A statement with a plain principal, Action and NotAction absent or a single
string, and no Condition. -/
def PlainStatement (ToUpper : String → String) (s : Statement) : Prop :=
  PlainPrincipal ToUpper s.Principal ∧
    (s.Action = Value.null ∨ ∃ a, s.Action = Value.str a) ∧
    (s.NotAction = Value.null ∨ ∃ a, s.NotAction = Value.str a) ∧
    s.Condition = none

/-- Entry `e2` is entry `e1` with the key possibly in another letter case and
the value either unchanged or, when it is a single string, replaced by the
one-element array of that string. -/
def EntryVariant (ToUpper : String → String) (e1 e2 : String × Value) : Prop :=
  ToUpper e2.1 = ToUpper e1.1 ∧
    (e2.2 = e1.2 ∨ ∃ s, e1.2 = Value.str s ∧ e2.2 = Value.arr [Value.str s])

/-- Principal map `m2` is `m1` up to `EntryVariant`: as many entries, and every
entry of `m1` has its variant in `m2`, wherever the `range` loop meets it. -/
def PrincipalVariant (ToUpper : String → String) (m1 m2 : PrincipalMap) : Prop :=
  (m1.getD []).length = (m2.getD []).length ∧
    ∀ e1 ∈ m1.getD [], ∃ e2 ∈ m2.getD [], EntryVariant ToUpper e1 e2

/-- Statement `s2` is `s1` except for a `PrincipalVariant` principal. -/
def StatementVariant (ToUpper : String → String) (s1 s2 : Statement) : Prop :=
  s2.Action = s1.Action ∧ s2.NotAction = s1.NotAction ∧ s2.Effect = s1.Effect ∧
    s2.Condition = s1.Condition ∧ PrincipalVariant ToUpper s1.Principal s2.Principal

/-- Statement `s` after a successful `normalizePrincipal` on a plain principal. -/
def normalizedStatement (ToUpper : String → String) (s : Statement) : Statement :=
  { s with Principal := some ((s.Principal.getD []).map (normalizedEntry ToUpper)) }

mutual
/-- A value all of whose objects, at any depth, have pairwise distinct keys, as
every Go map has. -/
def DistinctKeys : Value → Prop
  | .arr xs => DistinctKeysSlice xs
  | .obj kvs => (kvs.map Prod.fst).Nodup ∧ DistinctKeysEntries kvs
  | _ => True
/-- Every element of the slice satisfies `DistinctKeys`. -/
def DistinctKeysSlice : List Value → Prop
  | [] => True
  | x :: xs => DistinctKeys x ∧ DistinctKeysSlice xs
/-- Every value of the entries satisfies `DistinctKeys`. -/
def DistinctKeysEntries : List (String × Value) → Prop
  | [] => True
  | (_, v) :: rest => DistinctKeys v ∧ DistinctKeysEntries rest
end

/-- A map with pairwise distinct keys whose values satisfy `wf`. -/
def DistinctKeysMap {β : Type} (wf : β → Prop) (m : Option (List (String × β))) : Prop :=
  ((m.getD []).map Prod.fst).Nodup ∧ ∀ kv ∈ m.getD [], wf kv.2

/-- A decoded policy in which every map, at any depth, has pairwise distinct
keys, as every Go map has. -/
def WellFormedPolicy (p : Policy) : Prop :=
  ∀ s ∈ p.Statement.getD [],
    DistinctKeys s.Action ∧ DistinctKeys s.NotAction ∧
      DistinctKeysMap DistinctKeys s.Principal ∧
      DistinctKeysMap (DistinctKeysMap DistinctKeys) s.Condition

mutual
/-- A value built from strings, arrays and objects only: no null, no number, no
boolean at any depth. -/
def StringsOnly : Value → Prop
  | .str _ => True
  | .strs _ => True
  | .arr xs => StringsOnlySlice xs
  | .obj kvs => StringsOnlyEntries kvs
  | _ => False
/-- Every element of the slice satisfies `StringsOnly`. -/
def StringsOnlySlice : List Value → Prop
  | [] => True
  | x :: xs => StringsOnly x ∧ StringsOnlySlice xs
/-- Every value of the entries satisfies `StringsOnly`. -/
def StringsOnlyEntries : List (String × Value) → Prop
  | [] => True
  | (_, v) :: rest => StringsOnly v ∧ StringsOnlyEntries rest
end

/-- A statement on which the steps after the fast path can succeed: a plain
principal, Action and NotAction absent or a single string, and Condition values
built from strings, arrays and objects only. -/
def ComparableStatement (ToUpper : String → String) (s : Statement) : Prop :=
  PlainPrincipal ToUpper s.Principal ∧
    (s.Action = Value.null ∨ ∃ a, s.Action = Value.str a) ∧
    (s.NotAction = Value.null ∨ ∃ a, s.NotAction = Value.str a) ∧
    ∀ kv ∈ s.Condition.getD [], StringsOnly (boxMap kv.2)

/-! ## Lemmas -/

/-! ## The comparators never panic -/

theorem equalStrings_isSome : ∀ (a b : List String), a.length = b.length →
    ∃ r, equalStrings a b = some r
  | [], _, _ => ⟨true, rfl⟩
  | _ :: _, [], h => by simp at h
  | x :: xs, y :: ys, h => by
    simp only [equalStrings]
    split
    · exact ⟨false, rfl⟩
    · exact equalStrings_isSome xs ys (by simpa using h)

mutual
theorem compareValues_isSome : ∀ (a b : Value), ∃ r, compareValues a b = some r
  | .null, b => ⟨false, by simp [compareValues]⟩
  | .bool _, b => ⟨false, by simp [compareValues]⟩
  | .num _, b => ⟨false, by simp [compareValues]⟩
  | .str a, b => by
    cases b <;> simp [compareValues]
  | .strs a, b => by
    cases b <;> simp only [compareValues] <;> try exact ⟨false, rfl⟩
    split
    · exact equalStrings_isSome _ _ (by assumption)
    · exact ⟨false, rfl⟩
  | .arr a, b => by
    cases b <;> simp only [compareValues] <;> try exact ⟨false, rfl⟩
    rename_i bArr
    by_cases h : a.length = bArr.length
    · simp only [h, if_true, ne_eq, not_true_eq_false, if_false]
      exact equalInterfacesRange_isSome a bArr h
    · simp only [h, if_false]
      exact ⟨false, rfl⟩
  | .obj a, b => by
    cases b <;> simp only [compareValues] <;> try exact ⟨false, rfl⟩
    split
    · exact ⟨false, rfl⟩
    · exact compareValuesRange_isSome a _
theorem equalInterfacesRange_isSome : ∀ (a b : List Value), a.length = b.length →
    ∃ r, equalInterfacesRange a b = some r
  | [], _, _ => ⟨true, by simp [equalInterfacesRange]⟩
  | _ :: _, [], h => by simp at h
  | v :: vs, w :: ws, h => by
    simp only [equalInterfacesRange]
    obtain ⟨r, hr⟩ := compareValues_isSome v w
    rw [hr]
    cases r
    · exact ⟨false, rfl⟩
    · exact equalInterfacesRange_isSome vs ws (by simpa using h)
theorem compareValuesRange_isSome : ∀ (a b : List (String × Value)),
    ∃ r, compareValuesRange a b = some r
  | [], _ => ⟨true, by simp [compareValuesRange]⟩
  | (key, value) :: rest, bMap => by
    simp only [compareValuesRange]
    obtain ⟨r, hr⟩ := compareValues_isSome value (mapIndex Value.null bMap key)
    rw [hr]
    cases r
    · exact ⟨false, rfl⟩
    · exact compareValuesRange_isSome rest bMap
end

/-- The `[]interface{}` case of `compareValues` as the source writes it: the
length test, then the call of `equalInterfaces`. -/
theorem compareValues_arr (a b : List Value) :
    compareValues (.arr a) (.arr b)
      = if a.length = b.length then equalInterfaces a b else some false := by
  simp only [compareValues, equalInterfaces]

/-- A decoded JSON array (`[]interface{}`) as first argument falls through the
type switch of `equalActionOrNotAction`. -/
theorem equalActionOrNotAction_arr (xs : List Value) (b : Value) :
    equalActionOrNotAction (.arr xs) b = some false := rfl

theorem andAlso_eq_true_iff (x y : Option Bool) :
    andAlso x y = some true ↔ x = some true ∧ y = some true := by
  cases x with
  | none => simp [andAlso]
  | some b => cases b <;> simp [andAlso]

theorem andAlso_isSome (x y : Option Bool) (hx : ∃ r, x = some r) (hy : ∃ r, y = some r) :
    ∃ r, andAlso x y = some r := by
  obtain ⟨a, rfl⟩ := hx
  cases a
  · exact ⟨false, rfl⟩
  · simpa [andAlso] using hy

theorem rangeAll_eq_true_iff {α : Type} (check : α → Option Bool) (l : List α) :
    rangeAll check l = some true ↔ ∀ x ∈ l, check x = some true := by
  induction l with
  | nil => simp [rangeAll]
  | cons x rest ih =>
    simp only [rangeAll, List.mem_cons, forall_eq_or_imp]
    cases hx : check x with
    | none => simp
    | some b => cases b <;> simp [ih]

theorem rangeAll_isSome {α : Type} (check : α → Option Bool) (l : List α)
    (h : ∀ x ∈ l, ∃ r, check x = some r) : ∃ r, rangeAll check l = some r := by
  induction l with
  | nil => exact ⟨true, rfl⟩
  | cons x rest ih =>
    obtain ⟨r, hr⟩ := h x (List.mem_cons_self _ _)
    simp only [rangeAll, hr]
    cases r
    · exact ⟨false, rfl⟩
    · exact ih (fun y hy => h y (List.mem_cons_of_mem _ hy))

theorem equalActionOrNotAction_isSome (a b : Value) :
    ∃ r, equalActionOrNotAction a b = some r := by
  cases a <;> cases b <;> simp only [equalActionOrNotAction] <;>
    first
      | exact ⟨_, rfl⟩
      | (split
         · exact equalStrings_isSome _ _ (by assumption)
         · exact ⟨false, rfl⟩)

theorem PrincipalMap_Equals_isSome (pm other : PrincipalMap) :
    ∃ r, PrincipalMap.Equals pm other = some r := by
  unfold PrincipalMap.Equals
  split
  · exact ⟨false, rfl⟩
  · exact rangeAll_isSome _ _ (fun kv _ => compareValues_isSome _ _)

theorem ConditionMap_Equals_isSome (cm other : ConditionMap) :
    ∃ r, ConditionMap.Equals cm other = some r := by
  unfold ConditionMap.Equals
  cases cm with
  | none => exact ⟨_, rfl⟩
  | some entries =>
    simp only
    split
    · exact ⟨false, rfl⟩
    · exact rangeAll_isSome _ _ (fun kv _ => compareValues_isSome _ _)

theorem Statement_Equals_isSome (s other : Statement) :
    ∃ r, Statement.Equals s other = some r := by
  unfold Statement.Equals
  exact andAlso_isSome _ _ (equalActionOrNotAction_isSome _ _)
    (andAlso_isSome _ _ (equalActionOrNotAction_isSome _ _)
      (andAlso_isSome _ _ ⟨_, rfl⟩
        (andAlso_isSome _ _ (PrincipalMap_Equals_isSome _ _) (ConditionMap_Equals_isSome _ _))))

/-! ## Facts about the normalizer -/

theorem mem_mapAssign {β : Type} (m : List (String × β)) (key : String) (v : β)
    (kv : String × β) (h : kv ∈ mapAssign m key v) : kv = (key, v) ∨ kv ∈ m := by
  induction m with
  | nil => simpa [mapAssign] using h
  | cons e rest ih =>
    obtain ⟨k, w⟩ := e
    simp only [mapAssign] at h
    split at h
    · rcases List.mem_cons.1 h with h | h
      · exact Or.inl h
      · exact Or.inr (List.mem_cons_of_mem _ h)
    · rcases List.mem_cons.1 h with h | h
      · exact Or.inr (h ▸ List.mem_cons_self _ _)
      · rcases ih h with h | h
        · exact Or.inl h
        · exact Or.inr (List.mem_cons_of_mem _ h)

theorem allStrs_mapAssign (m : List (String × Value)) (key : String) (ss : List String)
    (h : AllStrs m) : AllStrs (mapAssign m key (.strs ss)) := by
  intro kv hkv
  rcases mem_mapAssign m key _ kv hkv with h1 | h1
  · exact ⟨ss, by rw [h1]⟩
  · exact h kv h1

theorem normalizePrincipalRange_allStrs (ToUpper : String → String) :
    ∀ (entries acc r : List (String × Value)),
      normalizePrincipalRange ToUpper entries acc = some (.ok r) → AllStrs acc → AllStrs r
  | [], acc, r, h, hacc => by
    simp only [normalizePrincipalRange, Option.some.injEq, Except.ok.injEq] at h
    exact h ▸ hacc
  | (k, v) :: rest, acc, r, h, hacc => by
    simp only [normalizePrincipalRange] at h
    split at h
    · simp at h
    · split at h
      · exact normalizePrincipalRange_allStrs ToUpper rest _ r h (allStrs_mapAssign _ _ _ hacc)
      · split at h
        · simp at h
        · exact normalizePrincipalRange_allStrs ToUpper rest _ r h (allStrs_mapAssign _ _ _ hacc)
      · simp at h

theorem normalizePrincipal_ok_allStrs (ToUpper : String → String) (m m1 : PrincipalMap)
    (h : normalizePrincipal ToUpper m = some (m1, none)) :
    ∃ r, m1 = some r ∧ AllStrs r := by
  unfold normalizePrincipal at h
  split at h
  · simp at h
  · simp at h
  · rename_i newPrincipal hr
    simp only [Option.some.injEq, Prod.mk.injEq, and_true] at h
    exact ⟨newPrincipal, h.symm,
      normalizePrincipalRange_allStrs ToUpper _ [] _ hr (fun _ hkv => by simp at hkv)⟩

theorem normalizePrincipalRange_strs_head (ToUpper : String → String) (k : String)
    (ss : List String) (rest acc : List (String × Value)) :
    ∃ msg, normalizePrincipalRange ToUpper ((k, .strs ss) :: rest) acc = some (.error msg) := by
  simp only [normalizePrincipalRange]
  split
  · exact ⟨_, rfl⟩
  · exact ⟨_, rfl⟩

theorem toStringArray_map_str (ss : List String) :
    toStringArray (ss.map Value.str) = some ss := by
  induction ss with
  | nil => rfl
  | cons x rest ih => simp [toStringArray, ih]

theorem toStringArray_eq_some : ∀ (xs : List Value) (ss : List String),
    toStringArray xs = some ss → xs = ss.map Value.str
  | [], ss, h => by
    simp only [toStringArray, Option.some.injEq] at h
    subst h
    rfl
  | .str s :: rest, ss, h => by
    simp only [toStringArray] at h
    split at h
    · rename_i strArray hrest
      simp only [Option.some.injEq] at h
      subst h
      simp [toStringArray_eq_some rest strArray hrest]
    · simp at h
  | .null :: _, _, h => by simp [toStringArray] at h
  | .bool _ :: _, _, h => by simp [toStringArray] at h
  | .num _ :: _, _, h => by simp [toStringArray] at h
  | .arr _ :: _, _, h => by simp [toStringArray] at h
  | .obj _ :: _, _, h => by simp [toStringArray] at h
  | .strs _ :: _, _, h => by simp [toStringArray] at h

theorem exists_map_str_of_all_str (xs : List Value) (h : ∀ x ∈ xs, ∃ s, x = Value.str s) :
    ∃ ss : List String, xs = ss.map Value.str := by
  induction xs with
  | nil => exact ⟨[], rfl⟩
  | cons x rest ih =>
    obtain ⟨s, rfl⟩ := h x (List.mem_cons_self _ _)
    obtain ⟨ss, rfl⟩ := ih (fun y hy => h y (List.mem_cons_of_mem _ hy))
    exact ⟨s :: ss, rfl⟩

theorem mapAssign_of_not_mem {β : Type} (m : List (String × β)) (key : String) (v : β)
    (h : key ∉ m.map Prod.fst) : mapAssign m key v = m ++ [(key, v)] := by
  induction m with
  | nil => rfl
  | cons e rest ih =>
    obtain ⟨k, w⟩ := e
    simp only [List.map_cons, List.mem_cons, not_or] at h
    have hk : ¬ k = key := fun hk => h.1 hk.symm
    simp [mapAssign, hk, ih h.2]

theorem mapLookup_of_mem {β : Type} (l : List (String × β)) (k : String) (v : β)
    (hl : (l.map Prod.fst).Nodup) (h : (k, v) ∈ l) : mapLookup l k = some v := by
  induction l with
  | nil => simp at h
  | cons e rest ih =>
    obtain ⟨k1, v1⟩ := e
    simp only [List.map_cons, List.nodup_cons] at hl
    rcases List.mem_cons.1 h with h | h
    · simp only [Prod.mk.injEq] at h
      simp [mapLookup, h.1, h.2]
    · have hne : ¬ k1 = k := by
        intro hk
        exact hl.1 (hk ▸ List.mem_map_of_mem Prod.fst h)
      simp [mapLookup, hne, ih hl.2 h]

theorem mapIndex_of_mem {β : Type} (zero : β) (l : List (String × β)) (k : String) (v : β)
    (hl : (l.map Prod.fst).Nodup) (h : (k, v) ∈ l) : mapIndex zero l k = v := by
  induction l with
  | nil => simp at h
  | cons e rest ih =>
    obtain ⟨k1, v1⟩ := e
    simp only [List.map_cons, List.nodup_cons] at hl
    rcases List.mem_cons.1 h with h | h
    · simp only [Prod.mk.injEq] at h
      simp [mapIndex, h.1, h.2]
    · have hne : ¬ k1 = k := by
        intro hk
        exact hl.1 (hk ▸ List.mem_map_of_mem Prod.fst h)
      simp [mapIndex, hne, ih hl.2 h]

/-- An entry that the loop of `normalizePrincipal` passes over without
returning: a valid upper-cased key, and a string or an array of strings. -/
theorem normalizePrincipalRange_ok_entries (ToUpper : String → String) :
    ∀ (entries acc r : List (String × Value)),
      normalizePrincipalRange ToUpper entries acc = some (.ok r) →
      ∀ kv ∈ entries, isValidPrincipalKey (ToUpper kv.1) = true ∧
        ((∃ s, kv.2 = Value.str s) ∨ ∃ ss : List String, kv.2 = Value.arr (ss.map Value.str))
  | [], _, _, _ => by simp
  | (k, v) :: rest, acc, r, h => by
    simp only [normalizePrincipalRange] at h
    split at h
    · simp at h
    · rename_i hvalid
      have hvalid1 : isValidPrincipalKey (ToUpper k) = true := by simpa using hvalid
      intro kv hkv
      split at h
      · rcases List.mem_cons.1 hkv with hkv | hkv
        · subst hkv
          exact ⟨hvalid1, Or.inl ⟨_, rfl⟩⟩
        · exact normalizePrincipalRange_ok_entries ToUpper rest _ r h kv hkv
      · split at h
        · simp at h
        · rename_i xs _ strArray hxs
          rcases List.mem_cons.1 hkv with hkv | hkv
          · subst hkv
            exact ⟨hvalid1, Or.inr ⟨strArray, by rw [toStringArray_eq_some xs strArray hxs]⟩⟩
          · exact normalizePrincipalRange_ok_entries ToUpper rest _ r h kv hkv
      · simp at h

/-- With pairwise distinct upper-cased keys, none of them in the map built so
far, a loop that ends has appended the normalized entries in order. -/
theorem normalizePrincipalRange_ok_eq (ToUpper : String → String) :
    ∀ (entries acc r : List (String × Value)),
      normalizePrincipalRange ToUpper entries acc = some (.ok r) →
      (entries.map (fun kv => ToUpper kv.1)).Nodup →
      (∀ kv ∈ entries, ToUpper kv.1 ∉ acc.map Prod.fst) →
      r = acc ++ entries.map (normalizedEntry ToUpper)
  | [], acc, r, h, _, _ => by
    simp only [normalizePrincipalRange, Option.some.injEq, Except.ok.injEq] at h
    simp [h]
  | (k, v) :: rest, acc, r, h, hnd, hacc => by
    simp only [List.map_cons, List.nodup_cons, List.mem_map, not_exists, not_and] at hnd
    have hk : ToUpper k ∉ acc.map Prod.fst := hacc (k, v) (List.mem_cons_self _ _)
    have hstep : ∀ w : Value, ∀ kv ∈ rest,
        ToUpper kv.1 ∉ (mapAssign acc (ToUpper k) w).map Prod.fst := by
      intro w kv hkv hmem
      rw [mapAssign_of_not_mem acc _ _ hk] at hmem
      simp only [List.map_append, List.map_cons, List.map_nil, List.mem_append,
        List.mem_singleton] at hmem
      rcases hmem with hmem | hmem
      · exact hacc kv (List.mem_cons_of_mem _ hkv) hmem
      · exact hnd.1 kv hkv hmem
    simp only [normalizePrincipalRange] at h
    split at h
    · simp at h
    · split at h
      · rw [normalizePrincipalRange_ok_eq ToUpper rest _ r h hnd.2 (hstep _),
          mapAssign_of_not_mem acc _ _ hk]
        simp [normalizedEntry]
      · split at h
        · simp at h
        · rename_i xs _ strArray hxs
          rw [normalizePrincipalRange_ok_eq ToUpper rest _ r h hnd.2 (hstep _),
            mapAssign_of_not_mem acc _ _ hk]
          simp [normalizedEntry, hxs]
      · simp at h

/-- The loop of `normalizePrincipal` ends without an early return when every
entry has a valid upper-cased key and a string or an array of strings. -/
theorem normalizePrincipalRange_ok_of_entries (ToUpper : String → String) :
    ∀ (entries acc : List (String × Value)),
      (∀ kv ∈ entries, isValidPrincipalKey (ToUpper kv.1) = true ∧
        ((∃ s, kv.2 = Value.str s) ∨ ∃ ss : List String, kv.2 = Value.arr (ss.map Value.str))) →
      ∃ r, normalizePrincipalRange ToUpper entries acc = some (.ok r)
  | [], acc, _ => ⟨acc, rfl⟩
  | (k, v) :: rest, acc, h => by
    obtain ⟨hvalid, hv⟩ := h (k, v) (List.mem_cons_self _ _)
    have hrest := fun kv hkv => h kv (List.mem_cons_of_mem _ hkv)
    simp only at hvalid hv
    rcases hv with ⟨s, rfl⟩ | ⟨ss, rfl⟩
    · simp only [normalizePrincipalRange, hvalid]
      exact normalizePrincipalRange_ok_of_entries ToUpper rest _ hrest
    · simp only [normalizePrincipalRange, hvalid, toStringArray_map_str]
      exact normalizePrincipalRange_ok_of_entries ToUpper rest _ hrest

theorem normalizePrincipal_ok_iff (ToUpper : String → String) (m m1 : PrincipalMap) :
    normalizePrincipal ToUpper m = some (m1, none) ↔
      ∃ r, normalizePrincipalRange ToUpper (m.getD []) [] = some (.ok r) ∧ m1 = some r := by
  unfold normalizePrincipal
  split
  · rename_i h
    simp [h]
  · rename_i msg h
    simp [h]
  · rename_i newPrincipal h
    simp only [h, Option.some.injEq, Prod.mk.injEq, and_true, Except.ok.injEq]
    constructor
    · intro h1
      exact ⟨newPrincipal, rfl, h1.symm⟩
    · rintro ⟨r, rfl, h1⟩
      exact h1.symm

theorem policyStatementACS_Equals_isSome (s other : policyStatementACS) :
    ∃ r, policyStatementACS.Equals (some s) (some other) = some r := by
  unfold policyStatementACS.Equals
  exact andAlso_isSome _ _ (equalActionOrNotAction_isSome _ _)
    (andAlso_isSome _ _ (equalActionOrNotAction_isSome _ _)
      (andAlso_isSome _ _ ⟨_, rfl⟩
        (andAlso_isSome _ _ (PrincipalMap_Equals_isSome _ _) (ConditionMap_Equals_isSome _ _))))

theorem Policy_EqualsRange_isSome : ∀ (l1 l2 : List Statement), l1.length = l2.length →
    ∃ r, Policy.EqualsRange l1 l2 = some r
  | [], _, _ => ⟨true, rfl⟩
  | _ :: _, [], h => by simp at h
  | s :: ss, t :: ts, h => by
    obtain ⟨r, hr⟩ := Statement_Equals_isSome s t
    simp only [Policy.EqualsRange, hr]
    cases r
    · exact ⟨false, rfl⟩
    · exact Policy_EqualsRange_isSome ss ts (by simpa using h)

theorem Policy_Equals_isSome (p other : Policy) : ∃ r, Policy.Equals p other = some r := by
  unfold Policy.Equals
  split
  · exact ⟨false, rfl⟩
  · rename_i h
    simp only [ne_eq, not_or, not_not] at h
    exact Policy_EqualsRange_isSome _ _ h.2

theorem Policy_EqualsRange_eq_true_iff : ∀ (l1 l2 : List Statement), l1.length = l2.length →
    (Policy.EqualsRange l1 l2 = some true ↔
      ∀ st ∈ l1.zip l2, Statement.Equals st.1 st.2 = some true)
  | [], _, _ => by simp [Policy.EqualsRange]
  | _ :: _, [], h => by simp at h
  | s :: ss, t :: ts, h => by
    have ih := Policy_EqualsRange_eq_true_iff ss ts (by simpa using h)
    simp only [Policy.EqualsRange, List.zip_cons_cons, List.mem_cons, forall_eq_or_imp]
    cases hst : Statement.Equals s t with
    | none => simp
    | some b => cases b <;> simp [ih]

theorem policyACS_EqualsRange_eq_true_iff :
    ∀ (l1 l2 : List (Option policyStatementACS)), l1.length = l2.length →
    (policyACS.EqualsRange l1 l2 = some true ↔
      ∀ st ∈ l1.zip l2, policyStatementACS.Equals st.1 st.2 = some true)
  | [], _, _ => by simp [policyACS.EqualsRange]
  | _ :: _, [], h => by simp at h
  | s :: ss, t :: ts, h => by
    have ih := policyACS_EqualsRange_eq_true_iff ss ts (by simpa using h)
    simp only [policyACS.EqualsRange, List.zip_cons_cons, List.mem_cons, forall_eq_or_imp]
    cases hst : policyStatementACS.Equals s t with
    | none => simp
    | some b => cases b <;> simp [ih]

/-- When every value is a string or an array of strings, the loop of
`normalizePrincipal` returns an error as soon as some upper-cased key is not
valid. -/
theorem normalizePrincipalRange_error_of_invalid (ToUpper : String → String) :
    ∀ (entries acc : List (String × Value)),
      (∀ kv ∈ entries, IsStringOrStrings kv.2) →
      (∃ kv ∈ entries, isValidPrincipalKey (ToUpper kv.1) = false) →
      ∃ msg, normalizePrincipalRange ToUpper entries acc = some (.error msg)
  | [], _, _, h => by simp at h
  | (k, v) :: rest, acc, hv, hbad => by
    by_cases hk : isValidPrincipalKey (ToUpper k) = true
    · have hbad1 : ∃ kv ∈ rest, isValidPrincipalKey (ToUpper kv.1) = false := by
        obtain ⟨kv, hkv, hkv1⟩ := hbad
        rcases List.mem_cons.1 hkv with hkv | hkv
        · subst hkv
          simp only [hk] at hkv1
          exact absurd hkv1 (by decide)
        · exact ⟨kv, hkv, hkv1⟩
      have hrest := fun kv hkv => hv kv (List.mem_cons_of_mem _ hkv)
      rcases hv (k, v) (List.mem_cons_self _ _) with ⟨t, ht⟩ | ⟨ss, hss⟩
      · simp only at ht
        subst ht
        simp only [normalizePrincipalRange, hk]
        exact normalizePrincipalRange_error_of_invalid ToUpper rest _ hrest hbad1
      · simp only at hss
        subst hss
        simp only [normalizePrincipalRange, hk, toStringArray_map_str]
        exact normalizePrincipalRange_error_of_invalid ToUpper rest _ hrest hbad1
    · simp only [Bool.not_eq_true] at hk
      simp only [normalizePrincipalRange, hk, Bool.not_false, if_true]
      exact ⟨_, rfl⟩

/-- When every value is a string or an array of strings, the loop of
`normalizePrincipal` does not panic. -/
theorem normalizePrincipalRange_isSome (ToUpper : String → String) :
    ∀ (entries acc : List (String × Value)),
      (∀ kv ∈ entries, IsStringOrStrings kv.2) →
      ∃ x, normalizePrincipalRange ToUpper entries acc = some x
  | [], acc, _ => ⟨_, rfl⟩
  | (k, v) :: rest, acc, hv => by
    have hrest := fun kv hkv => hv kv (List.mem_cons_of_mem _ hkv)
    by_cases hk : isValidPrincipalKey (ToUpper k) = true
    · rcases hv (k, v) (List.mem_cons_self _ _) with ⟨t, ht⟩ | ⟨ss, hss⟩
      · simp only at ht
        subst ht
        simp only [normalizePrincipalRange, hk]
        exact normalizePrincipalRange_isSome ToUpper rest _ hrest
      · simp only at hss
        subst hss
        simp only [normalizePrincipalRange, hk, toStringArray_map_str]
        exact normalizePrincipalRange_isSome ToUpper rest _ hrest
    · simp only [Bool.not_eq_true] at hk
      simp only [normalizePrincipalRange, hk, Bool.not_false, if_true]
      exact ⟨_, rfl⟩

theorem normalizePrincipal_error_of_invalid (ToUpper : String → String) (m : PrincipalMap)
    (hv : ∀ kv ∈ m.getD [], IsStringOrStrings kv.2)
    (hbad : ∃ kv ∈ m.getD [], isValidPrincipalKey (ToUpper kv.1) = false) :
    ∃ msg, normalizePrincipal ToUpper m = some (m, some msg) := by
  obtain ⟨msg, h⟩ := normalizePrincipalRange_error_of_invalid ToUpper _ [] hv hbad
  exact ⟨msg, by simp [normalizePrincipal, h]⟩

theorem normalizePrincipal_isSome (ToUpper : String → String) (m : PrincipalMap)
    (hv : ∀ kv ∈ m.getD [], IsStringOrStrings kv.2) :
    ∃ x, normalizePrincipal ToUpper m = some x := by
  obtain ⟨x, h⟩ := normalizePrincipalRange_isSome ToUpper _ [] hv
  unfold normalizePrincipal
  rw [h]
  cases x <;> exact ⟨_, rfl⟩

/-- When every principal value is a string or an array of strings, the loop over
the statements does not panic, and returns an error when some upper-cased
principal key is not valid. -/
theorem normalizeStatements_of_strings (ToUpper : String → String) :
    ∀ (l : List Statement),
      (∀ s ∈ l, ∀ kv ∈ s.Principal.getD [], IsStringOrStrings kv.2) →
      (∃ x, normalizeStatements ToUpper l = some x) ∧
      ((∃ s ∈ l, ∃ kv ∈ s.Principal.getD [], isValidPrincipalKey (ToUpper kv.1) = false) →
        ∃ msg, normalizeStatements ToUpper l = some (.error msg))
  | [], _ => ⟨⟨_, rfl⟩, by simp⟩
  | s :: rest, hv => by
    have hs := hv s (List.mem_cons_self _ _)
    obtain ⟨ih1, ih2⟩ := normalizeStatements_of_strings ToUpper rest
      (fun t ht => hv t (List.mem_cons_of_mem _ ht))
    obtain ⟨x, hx⟩ := normalizePrincipal_isSome ToUpper s.Principal hs
    obtain ⟨y, hy⟩ := ih1
    obtain ⟨m1, e⟩ := x
    constructor
    · simp only [normalizeStatements, hx]
      cases e with
      | some msg => exact ⟨_, rfl⟩
      | none =>
        simp only [hy]
        cases y <;> exact ⟨_, rfl⟩
    · rintro ⟨t, ht, hbad⟩
      simp only [normalizeStatements, hx]
      cases e with
      | some msg => exact ⟨_, rfl⟩
      | none =>
        rcases List.mem_cons.1 ht with ht | ht
        · subst ht
          obtain ⟨msg, hmsg⟩ := normalizePrincipal_error_of_invalid ToUpper t.Principal hs hbad
          rw [hmsg] at hx
          simp at hx
        · obtain ⟨msg, hmsg⟩ := ih2 ⟨t, ht, hbad⟩
          simp only [hmsg]
          exact ⟨_, rfl⟩

theorem equalStrings_self (ss : List String) : equalStrings ss ss = some true := by
  induction ss with
  | nil => rfl
  | cons x rest ih => simp [equalStrings, ih]

theorem normalizePrincipal_plain (ToUpper : String → String) (m : PrincipalMap)
    (h : PlainPrincipal ToUpper m) :
    normalizePrincipal ToUpper m
      = some (some ((m.getD []).map (normalizedEntry ToUpper)), none) := by
  obtain ⟨r, hr⟩ := normalizePrincipalRange_ok_of_entries ToUpper (m.getD []) [] h.2
  have hreq := normalizePrincipalRange_ok_eq ToUpper _ _ r hr h.1 (by simp)
  simp only [List.nil_append] at hreq
  subst hreq
  exact (normalizePrincipal_ok_iff ToUpper m _).2 ⟨_, hr, rfl⟩

theorem normalizeStatements_plain (ToUpper : String → String) :
    ∀ (l : List Statement), (∀ s ∈ l, PlainPrincipal ToUpper s.Principal) →
      normalizeStatements ToUpper l = some (.ok (l.map (normalizedStatement ToUpper)))
  | [], _ => rfl
  | s :: rest, h => by
    have hs := normalizePrincipal_plain ToUpper s.Principal (h s (List.mem_cons_self _ _))
    have ih := normalizeStatements_plain ToUpper rest
      (fun t ht => h t (List.mem_cons_of_mem _ ht))
    simp only [normalizeStatements, hs, ih, List.map_cons]
    rfl

theorem normalizedEntry_snd_of_strings (ToUpper : String → String) (e : String × Value)
    (h : IsStringOrStrings e.2) : ∃ ss, (normalizedEntry ToUpper e).2 = Value.strs ss := by
  obtain ⟨k, v⟩ := e
  rcases h with ⟨s, hs⟩ | ⟨ss, hss⟩
  · simp only at hs
    subst hs
    exact ⟨[s], rfl⟩
  · simp only at hss
    subst hss
    exact ⟨ss, by simp [normalizedEntry, toStringArray_map_str]⟩

theorem normalizedEntry_eq_of_variant (ToUpper : String → String) (e1 e2 : String × Value)
    (h : EntryVariant ToUpper e1 e2) :
    normalizedEntry ToUpper e2 = normalizedEntry ToUpper e1 := by
  obtain ⟨k1, v1⟩ := e1
  obtain ⟨k2, v2⟩ := e2
  obtain ⟨hk, hv⟩ := h
  simp only at hk hv
  rcases hv with hv | ⟨s, hs1, hs2⟩
  · subst hv
    simp [normalizedEntry, hk]
  · subst hs1
    subst hs2
    simp [normalizedEntry, hk, toStringArray]

/-- After normalization, the principals of two plain statements that are variants
of each other are `Equals`. -/
theorem PrincipalMap_Equals_of_variant (ToUpper : String → String) (m1 m2 : PrincipalMap)
    (h1 : PlainPrincipal ToUpper m1) (h2 : PlainPrincipal ToUpper m2)
    (hv : PrincipalVariant ToUpper m1 m2) :
    PrincipalMap.Equals (some ((m1.getD []).map (normalizedEntry ToUpper)))
      (some ((m2.getD []).map (normalizedEntry ToUpper))) = some true := by
  have hnd2 : (((m2.getD []).map (normalizedEntry ToUpper)).map Prod.fst).Nodup := by
    rw [List.map_map]
    exact h2.1
  unfold PrincipalMap.Equals
  simp only [Option.getD_some, List.length_map, hv.1, ne_eq, not_true_eq_false, if_false]
  rw [rangeAll_eq_true_iff]
  intro kv hkv
  obtain ⟨e1, he1, rfl⟩ := List.mem_map.1 hkv
  obtain ⟨e2, he2, hvar⟩ := hv.2 e1 he1
  have hmem : normalizedEntry ToUpper e1 ∈ (m2.getD []).map (normalizedEntry ToUpper) := by
    rw [← normalizedEntry_eq_of_variant ToUpper e1 e2 hvar]
    exact List.mem_map_of_mem _ he2
  rw [mapIndex_of_mem Value.null _ (normalizedEntry ToUpper e1).1
    (normalizedEntry ToUpper e1).2 hnd2 hmem]
  obtain ⟨ss, hss⟩ := normalizedEntry_snd_of_strings ToUpper e1 (h1.2 e1 he1).2
  rw [hss]
  simp [compareValues, equalStrings_self]

theorem equalActionOrNotAction_self_of_plain (a : Value)
    (h : a = Value.null ∨ ∃ t, a = Value.str t) : equalActionOrNotAction a a = some true := by
  rcases h with rfl | ⟨t, rfl⟩ <;> simp [equalActionOrNotAction]

theorem Statement_Equals_of_variant (ToUpper : String → String) (s1 s2 : Statement)
    (h1 : PlainStatement ToUpper s1) (h2 : PlainStatement ToUpper s2)
    (hv : StatementVariant ToUpper s1 s2) :
    Statement.Equals (normalizedStatement ToUpper s1) (normalizedStatement ToUpper s2)
      = some true := by
  obtain ⟨ha, hna, he, hc, hp⟩ := hv
  obtain ⟨hp1, ha1, hna1, hc1⟩ := h1
  unfold Statement.Equals
  simp only [normalizedStatement, ha, hna, he, hc, hc1, andAlso_eq_true_iff, decide_True,
    and_true, true_and]
  exact ⟨equalActionOrNotAction_self_of_plain _ ha1,
    equalActionOrNotAction_self_of_plain _ hna1,
    PrincipalMap_Equals_of_variant ToUpper _ _ hp1 h2.1 hp, rfl⟩

theorem Policy_EqualsRange_of_variant (ToUpper : String → String) :
    ∀ (l1 l2 : List Statement), List.Forall₂ (StatementVariant ToUpper) l1 l2 →
      (∀ s ∈ l1, PlainStatement ToUpper s) → (∀ s ∈ l2, PlainStatement ToUpper s) →
      Policy.EqualsRange (l1.map (normalizedStatement ToUpper))
        (l2.map (normalizedStatement ToUpper)) = some true
  | [], _, _, _, _ => rfl
  | _ :: _, [], h, _, _ => by cases h
  | s :: ss, t :: ts, h, h1, h2 => by
    rw [List.forall₂_cons] at h
    have hst := Statement_Equals_of_variant ToUpper s t (h1 s (List.mem_cons_self _ _))
      (h2 t (List.mem_cons_self _ _)) h.1
    simp only [List.map_cons, Policy.EqualsRange, hst]
    exact Policy_EqualsRange_of_variant ToUpper ss ts h.2
      (fun x hx => h1 x (List.mem_cons_of_mem _ hx))
      (fun x hx => h2 x (List.mem_cons_of_mem _ hx))

/-- The statements of a policy after the normalization loop has run over them in
place: the slice keeps its nil-ness, and `ss` are its elements. -/
theorem getD_map_normalized (ToUpper : String → String) (st : Option (List Statement))
    (ss : List Statement) (h : normalizeStatements ToUpper (st.getD []) = some (.ok ss)) :
    (st.map (fun _ => ss)).getD [] = ss := by
  cases st with
  | none =>
    simp only [Option.getD_none, normalizeStatements, Option.some.injEq, Except.ok.injEq] at h
    simp [h]
  | some l => rfl

/-! ## More facts about maps and the normalizer -/

theorem mapLookup_eq_none_iff {β : Type} (l : List (String × β)) (k : String) :
    mapLookup l k = none ↔ k ∉ l.map Prod.fst := by
  induction l with
  | nil => simp [mapLookup]
  | cons e rest ih =>
    obtain ⟨k1, v1⟩ := e
    by_cases hk : k1 = k
    · simp [mapLookup, hk]
    · have hk1 : ¬ k = k1 := fun h => hk h.symm
      simp [mapLookup, hk, hk1, ih]

theorem mem_of_mapLookup {β : Type} (l : List (String × β)) (k : String) (v : β)
    (h : mapLookup l k = some v) : (k, v) ∈ l := by
  induction l with
  | nil => simp [mapLookup] at h
  | cons e rest ih =>
    obtain ⟨k1, v1⟩ := e
    by_cases hk : k1 = k
    · simp only [mapLookup, hk, if_true, Option.some.injEq] at h
      simp [hk, h]
    · simp only [mapLookup, hk, if_false] at h
      exact List.mem_cons_of_mem _ (ih h)

theorem mapIndex_eq_getD {β : Type} (zero : β) (l : List (String × β)) (k : String) :
    mapIndex zero l k = (mapLookup l k).getD zero := by
  induction l with
  | nil => rfl
  | cons e rest ih =>
    obtain ⟨k1, v1⟩ := e
    by_cases hk : k1 = k <;> simp [mapIndex, mapLookup, hk, ih]

/-- Two enumerations of the same entries, with pairwise distinct keys, answer
every lookup alike. -/
theorem mapLookup_perm {β : Type} (l1 l2 : List (String × β)) (k : String)
    (h : l1.Perm l2) (hnd : (l1.map Prod.fst).Nodup) : mapLookup l1 k = mapLookup l2 k := by
  have hnd2 : (l2.map Prod.fst).Nodup := ((h.map Prod.fst).nodup_iff).1 hnd
  cases h1 : mapLookup l1 k with
  | none =>
    have hk := (mapLookup_eq_none_iff l1 k).1 h1
    have hk2 : k ∉ l2.map Prod.fst := fun hm => hk (((h.map Prod.fst).mem_iff).2 hm)
    exact ((mapLookup_eq_none_iff l2 k).2 hk2).symm
  | some v =>
    have hm := mem_of_mapLookup l1 k v h1
    exact (mapLookup_of_mem l2 k v hnd2 (h.mem_iff.1 hm)).symm

/-- Every entry of the map that the loop of `normalizePrincipal` ends with was
in the map it started with or is the normalized form of a visited entry. -/
theorem normalizePrincipalRange_origin (ToUpper : String → String) :
    ∀ (entries acc r : List (String × Value)),
      normalizePrincipalRange ToUpper entries acc = some (.ok r) →
      ∀ kv ∈ r, kv ∈ acc ∨ ∃ e ∈ entries, kv = normalizedEntry ToUpper e
  | [], acc, r, h => by
    simp only [normalizePrincipalRange, Option.some.injEq, Except.ok.injEq] at h
    subst h
    exact fun kv hkv => Or.inl hkv
  | (k, v) :: rest, acc, r, h => by
    intro kv hkv
    simp only [normalizePrincipalRange] at h
    split at h
    · simp at h
    · split at h
      · rename_i s0
        rcases normalizePrincipalRange_origin ToUpper rest _ r h kv hkv with h1 | ⟨e, he, h1⟩
        · rcases mem_mapAssign _ _ _ kv h1 with h2 | h2
          · exact Or.inr ⟨(k, Value.str s0), List.mem_cons_self _ _, by rw [h2]; rfl⟩
          · exact Or.inl h2
        · exact Or.inr ⟨e, List.mem_cons_of_mem _ he, h1⟩
      · split at h
        · simp at h
        · rename_i xs _ strArray hxs
          rcases normalizePrincipalRange_origin ToUpper rest _ r h kv hkv with h1 | ⟨e, he, h1⟩
          · rcases mem_mapAssign _ _ _ kv h1 with h2 | h2
            · exact Or.inr ⟨(k, Value.arr xs), List.mem_cons_self _ _, by
                rw [h2]; simp [normalizedEntry, hxs]⟩
            · exact Or.inl h2
          · exact Or.inr ⟨e, List.mem_cons_of_mem _ he, h1⟩
      · simp at h

/-! ## Maps compared entry by entry -/

theorem compareValues_null_right (a : Value) : compareValues a Value.null = some false := by
  cases a <;> simp [compareValues]

theorem compareValues_missing (v : Value) (b : List (String × Value)) (k : String)
    (hk : k ∉ b.map Prod.fst) : compareValues v (mapIndex Value.null b k) = some false := by
  rw [mapIndex_eq_getD, (mapLookup_eq_none_iff b k).2 hk]
  exact compareValues_null_right v

theorem compareValuesRange_eq_true_iff : ∀ (a b : List (String × Value)),
    compareValuesRange a b = some true ↔
      ∀ kv ∈ a, compareValues kv.2 (mapIndex Value.null b kv.1) = some true
  | [], _ => by simp [compareValuesRange]
  | (key, value) :: rest, b => by
    have ih := compareValuesRange_eq_true_iff rest b
    simp only [compareValuesRange, List.mem_cons, forall_eq_or_imp]
    cases h : compareValues value (mapIndex Value.null b key) with
    | none => simp
    | some r => cases r <;> simp [ih]

/-- Two maps with pairwise distinct keys and the same keys have the same
length. -/
theorem length_eq_of_same_keys {β : Type} (a b : List (String × β))
    (ha : (a.map Prod.fst).Nodup) (hb : (b.map Prod.fst).Nodup)
    (h : ∀ k, k ∈ a.map Prod.fst ↔ k ∈ b.map Prod.fst) : a.length = b.length := by
  have hp := (List.perm_ext_iff_of_nodup ha hb).2 h
  simpa using hp.length_eq

/-- A map with pairwise distinct keys, all of them keys of a second map of the
same length, has the keys of the second map. -/
theorem same_keys_of_subset {β : Type} (a b : List (String × β))
    (ha : (a.map Prod.fst).Nodup) (hlen : a.length = b.length)
    (hsub : ∀ k ∈ a.map Prod.fst, k ∈ b.map Prod.fst) :
    ∀ k, k ∈ a.map Prod.fst ↔ k ∈ b.map Prod.fst := by
  have hp : (a.map Prod.fst).Perm (b.map Prod.fst) :=
    (List.subperm_of_subset ha hsub).perm_of_length_le (by simp [hlen])
  exact fun k => hp.mem_iff

/-- The loop shared by the map case of `compareValues` and by
`PrincipalMap.Equals`, after the length test, on two maps with pairwise
distinct keys: every entry of `a` compares equal to what `b` holds under its
key exactly when the keys are the same and the values compare equal key by
key. -/
theorem compare_entries_iff (a b : List (String × Value))
    (ha : (a.map Prod.fst).Nodup) (hb : (b.map Prod.fst).Nodup) :
    (a.length = b.length ∧
        ∀ kv ∈ a, compareValues kv.2 (mapIndex Value.null b kv.1) = some true) ↔
      (∀ k, k ∈ a.map Prod.fst ↔ k ∈ b.map Prod.fst) ∧
        ∀ k ∈ a.map Prod.fst,
          compareValues (mapIndex Value.null a k) (mapIndex Value.null b k) = some true := by
  constructor
  · rintro ⟨hlen, hall⟩
    have hsub : ∀ k ∈ a.map Prod.fst, k ∈ b.map Prod.fst := by
      intro k hk
      obtain ⟨kv, hkv, rfl⟩ := List.mem_map.1 hk
      by_contra hnot
      have h1 := hall kv hkv
      rw [compareValues_missing kv.2 b kv.1 hnot] at h1
      simp at h1
    refine ⟨same_keys_of_subset a b ha hlen hsub, ?_⟩
    intro k hk
    obtain ⟨kv, hkv, rfl⟩ := List.mem_map.1 hk
    rw [mapIndex_of_mem Value.null a kv.1 kv.2 ha hkv]
    exact hall kv hkv
  · rintro ⟨hkeys, hall⟩
    refine ⟨length_eq_of_same_keys a b ha hb hkeys, ?_⟩
    intro kv hkv
    have h1 := hall kv.1 (List.mem_map_of_mem Prod.fst hkv)
    rwa [mapIndex_of_mem Value.null a kv.1 kv.2 ha hkv] at h1

/-! ## Normalized principals -/

theorem mapAssign_map_fst_of_mem {β : Type} (m : List (String × β)) (key : String) (v : β)
    (h : key ∈ m.map Prod.fst) : (mapAssign m key v).map Prod.fst = m.map Prod.fst := by
  induction m with
  | nil => simp at h
  | cons e rest ih =>
    obtain ⟨k, w⟩ := e
    by_cases hk : k = key
    · simp [mapAssign, hk]
    · have h1 : key ∈ rest.map Prod.fst := by
        simp only [List.map_cons, List.mem_cons] at h
        rcases h with h | h
        · exact absurd h.symm hk
        · exact h
      simp [mapAssign, hk, ih h1]

theorem mapAssign_nodup {β : Type} (m : List (String × β)) (key : String) (v : β)
    (h : (m.map Prod.fst).Nodup) : ((mapAssign m key v).map Prod.fst).Nodup := by
  by_cases hk : key ∈ m.map Prod.fst
  · rw [mapAssign_map_fst_of_mem m key v hk]
    exact h
  · rw [mapAssign_of_not_mem m key v hk, List.map_append]
    simp only [List.map_cons, List.map_nil]
    exact List.Nodup.append h (List.nodup_singleton _) (by simpa using hk)

/-- The map that the loop of `normalizePrincipal` builds has pairwise distinct
keys, as the Go map it stands for. -/
theorem normalizePrincipalRange_nodup (ToUpper : String → String) :
    ∀ (entries acc r : List (String × Value)),
      normalizePrincipalRange ToUpper entries acc = some (.ok r) →
      (acc.map Prod.fst).Nodup → (r.map Prod.fst).Nodup
  | [], acc, r, h, hacc => by
    simp only [normalizePrincipalRange, Option.some.injEq, Except.ok.injEq] at h
    exact h ▸ hacc
  | (k, v) :: rest, acc, r, h, hacc => by
    simp only [normalizePrincipalRange] at h
    split at h
    · simp at h
    · split at h
      · exact normalizePrincipalRange_nodup ToUpper rest _ r h (mapAssign_nodup _ _ _ hacc)
      · split at h
        · simp at h
        · exact normalizePrincipalRange_nodup ToUpper rest _ r h (mapAssign_nodup _ _ _ hacc)
      · simp at h

/-- An output of a successful `normalizePrincipal`: a non-nil map with pairwise
distinct keys whose values are all `[]string`. -/
theorem normalizePrincipal_ok_shape (ToUpper : String → String) (m m1 : PrincipalMap)
    (h : normalizePrincipal ToUpper m = some (m1, none)) :
    ∃ r, m1 = some r ∧ (r.map Prod.fst).Nodup ∧ AllStrs r := by
  obtain ⟨r, hr, rfl⟩ := (normalizePrincipal_ok_iff ToUpper m m1).1 h
  exact ⟨r, rfl, normalizePrincipalRange_nodup ToUpper _ [] r hr (by simp),
    normalizePrincipalRange_allStrs ToUpper _ [] r hr (fun _ hkv => by simp at hkv)⟩

theorem equalStrings_eq_true_iff : ∀ (a b : List String), a.length = b.length →
    (equalStrings a b = some true ↔ a = b)
  | [], [], _ => by simp [equalStrings]
  | [], _ :: _, h => by simp at h
  | _ :: _, [], h => by simp at h
  | x :: xs, y :: ys, h => by
    have ih := equalStrings_eq_true_iff xs ys (by simpa using h)
    by_cases hxy : x = y
    · simp [equalStrings, hxy, ih]
    · simp [equalStrings, hxy]

theorem compareValues_strs_eq_true_iff (a b : List String) :
    compareValues (.strs a) (.strs b) = some true ↔ a = b := by
  simp only [compareValues]
  split
  · rename_i h
    exact equalStrings_eq_true_iff a b h
  · rename_i h
    constructor
    · intro hf
      simp at hf
    · intro hab
      exact absurd (by rw [hab]) h

/-! ## `reflect.DeepEqual` of a value with itself -/

mutual
theorem deepEqualValue_refl : ∀ (v : Value), DistinctKeys v → deepEqualValue v v = true
  | .null, _ => by simp [deepEqualValue]
  | .bool _, _ => by simp [deepEqualValue]
  | .num _, _ => by simp [deepEqualValue]
  | .str _, _ => by simp [deepEqualValue]
  | .strs _, _ => by simp [deepEqualValue]
  | .arr xs, h => by
    simp only [DistinctKeys] at h
    simp only [deepEqualValue]
    exact deepEqualSlice_refl xs h
  | .obj kvs, h => by
    simp only [DistinctKeys] at h
    simp only [deepEqualValue, decide_True, Bool.true_and]
    exact deepEqualRange_refl kvs kvs h.2 (fun kv hkv => mapLookup_of_mem kvs _ _ h.1 hkv)
theorem deepEqualSlice_refl : ∀ (xs : List Value), DistinctKeysSlice xs →
    deepEqualSlice xs xs = true
  | [], _ => by simp [deepEqualSlice]
  | x :: xs, h => by
    simp only [DistinctKeysSlice] at h
    simp only [deepEqualSlice, deepEqualValue_refl x h.1, deepEqualSlice_refl xs h.2,
      Bool.and_self]
theorem deepEqualRange_refl : ∀ (l b : List (String × Value)), DistinctKeysEntries l →
    (∀ kv ∈ l, mapLookup b kv.1 = some kv.2) → deepEqualRange l b = true
  | [], _, _, _ => by simp [deepEqualRange]
  | (k, v) :: rest, b, h, hl => by
    simp only [DistinctKeysEntries] at h
    have hk := hl (k, v) (List.mem_cons_self _ _)
    simp only at hk
    simp only [deepEqualRange, hk, deepEqualValue_refl v h.1, Bool.true_and]
    exact deepEqualRange_refl rest b h.2 (fun kv hkv => hl kv (List.mem_cons_of_mem _ hkv))
end

theorem deepEqualMap_refl {β : Type} (eq : β → β → Bool) (wf : β → Prop)
    (hwf : ∀ x, wf x → eq x x = true) (m : Option (List (String × β)))
    (h : DistinctKeysMap wf m) : deepEqualMap eq m m = true := by
  cases m with
  | none => rfl
  | some l =>
    obtain ⟨hnd, hv⟩ := h
    simp only [Option.getD_some] at hnd hv
    simp only [deepEqualMap, decide_True, Bool.true_and, List.all_eq_true]
    intro kv hkv
    rw [mapLookup_of_mem l kv.1 kv.2 hnd hkv]
    exact hwf kv.2 (hv kv hkv)

theorem deepEqualStatements_refl : ∀ (l : List Statement),
    (∀ s ∈ l, DistinctKeys s.Action ∧ DistinctKeys s.NotAction ∧
      DistinctKeysMap DistinctKeys s.Principal ∧
      DistinctKeysMap (DistinctKeysMap DistinctKeys) s.Condition) →
    deepEqualStatements l l = true
  | [], _ => rfl
  | s :: rest, h => by
    obtain ⟨ha, hna, hp, hc⟩ := h s (List.mem_cons_self _ _)
    have hs : deepEqualStatement s s = true := by
      simp only [deepEqualStatement, deepEqualValue_refl _ ha, deepEqualValue_refl _ hna,
        decide_True, Bool.and_self, Bool.true_and,
        deepEqualMap_refl deepEqualValue DistinctKeys deepEqualValue_refl _ hp,
        deepEqualMap_refl (deepEqualMap deepEqualValue) (DistinctKeysMap DistinctKeys)
          (fun x hx => deepEqualMap_refl deepEqualValue DistinctKeys deepEqualValue_refl x hx)
          _ hc]
    simp only [deepEqualStatements, hs, Bool.true_and]
    exact deepEqualStatements_refl rest (fun t ht => h t (List.mem_cons_of_mem _ ht))

theorem deepEqualPolicy_refl (p : Policy) (h : WellFormedPolicy p) :
    deepEqualPolicy p p = true := by
  unfold deepEqualPolicy
  simp only [decide_True, Bool.true_and]
  cases hs : p.Statement with
  | none => rfl
  | some l =>
    simp only
    apply deepEqualStatements_refl
    intro s hsl
    exact h s (by rw [hs]; exact hsl)

/-! ## Deeply equal values under the comparators -/

theorem deepEqualSlice_of_strings : ∀ (ss : List String) (ys : List Value),
    deepEqualSlice (ss.map Value.str) ys = true → ys = ss.map Value.str
  | [], ys, h => by
    cases ys with
    | nil => rfl
    | cons y rest => simp [deepEqualSlice] at h
  | x :: xs, ys, h => by
    cases ys with
    | nil => simp [deepEqualSlice] at h
    | cons y rest =>
      simp only [List.map_cons, deepEqualSlice, Bool.and_eq_true] at h
      have hrest := deepEqualSlice_of_strings xs rest h.2
      cases y <;> simp [deepEqualValue] at h
      simp [h.1, hrest]

/-- A string or an array of strings is deeply equal only to itself. -/
theorem eq_of_deepEqualValue_of_strings (v w : Value) (hv : IsStringOrStrings v)
    (h : deepEqualValue v w = true) : w = v := by
  rcases hv with ⟨s, rfl⟩ | ⟨ss, rfl⟩
  · cases w <;> simp [deepEqualValue] at h
    simp [h]
  · cases w <;> simp [deepEqualValue] at h
    rw [deepEqualSlice_of_strings ss _ h]

theorem equalActionOrNotAction_of_deepEqual (a b : Value)
    (ha : a = Value.null ∨ ∃ t, a = Value.str t) (h : deepEqualValue a b = true) :
    equalActionOrNotAction a b = some true := by
  rcases ha with rfl | ⟨t, rfl⟩
  · cases b <;> simp [deepEqualValue] at h
    rfl
  · cases b <;> simp [deepEqualValue] at h
    simp [equalActionOrNotAction, h]

mutual
/-- On values built from strings, arrays and objects, what `reflect.DeepEqual`
finds equal, `compareValues` finds equal. -/
theorem compareValues_of_deepEqual : ∀ (a b : Value), StringsOnly a →
    deepEqualValue a b = true → compareValues a b = some true
  | .null, _, h, _ => by simp [StringsOnly] at h
  | .bool _, _, h, _ => by simp [StringsOnly] at h
  | .num _, _, h, _ => by simp [StringsOnly] at h
  | .str x, b, _, h => by
    cases b <;> simp [deepEqualValue] at h
    simp [compareValues, h]
  | .strs x, b, _, h => by
    cases b <;> simp [deepEqualValue] at h
    rw [h]
    exact (compareValues_strs_eq_true_iff _ _).2 rfl
  | .arr xs, b, hs, h => by
    cases b <;> simp [deepEqualValue] at h
    simp only [StringsOnly] at hs
    obtain ⟨hlen, hr⟩ := equalInterfacesRange_of_deepEqual xs _ hs h
    simp [compareValues, hlen, hr]
  | .obj kvs, b, hs, h => by
    cases b <;> simp [deepEqualValue] at h
    simp only [StringsOnly] at hs
    simp [compareValues, h.1, compareValuesRange_of_deepEqual kvs _ hs h.2]
theorem equalInterfacesRange_of_deepEqual : ∀ (xs ys : List Value), StringsOnlySlice xs →
    deepEqualSlice xs ys = true →
    xs.length = ys.length ∧ equalInterfacesRange xs ys = some true
  | [], ys, _, h => by
    cases ys with
    | nil => exact ⟨rfl, by simp [equalInterfacesRange]⟩
    | cons y rest => simp [deepEqualSlice] at h
  | x :: xs, ys, hs, h => by
    cases ys with
    | nil => simp [deepEqualSlice] at h
    | cons y rest =>
      simp only [deepEqualSlice, Bool.and_eq_true] at h
      simp only [StringsOnlySlice] at hs
      obtain ⟨hlen, hr⟩ := equalInterfacesRange_of_deepEqual xs rest hs.2 h.2
      have hx := compareValues_of_deepEqual x y hs.1 h.1
      exact ⟨by simp [hlen], by simp [equalInterfacesRange, hx, hr]⟩
theorem compareValuesRange_of_deepEqual : ∀ (l b : List (String × Value)),
    StringsOnlyEntries l → deepEqualRange l b = true → compareValuesRange l b = some true
  | [], _, _, _ => by simp [compareValuesRange]
  | (k, v) :: rest, b, hs, h => by
    simp only [deepEqualRange, Bool.and_eq_true] at h
    simp only [StringsOnlyEntries] at hs
    have hrest := compareValuesRange_of_deepEqual rest b hs.2 h.2
    cases hk : mapLookup b k with
    | none => simp [hk] at h
    | some w =>
      simp only [hk] at h
      have hv := compareValues_of_deepEqual v w hs.1 h.1
      simp [compareValuesRange, mapIndex_eq_getD, hk, hv, hrest]
end

theorem deepEqualRange_eq_true_iff : ∀ (x y : List (String × Value)),
    deepEqualRange x y = true ↔
      ∀ kv ∈ x, ∃ w, mapLookup y kv.1 = some w ∧ deepEqualValue kv.2 w = true
  | [], _ => by simp [deepEqualRange]
  | (k, v) :: rest, y => by
    have ih := deepEqualRange_eq_true_iff rest y
    simp only [deepEqualRange, Bool.and_eq_true, List.mem_cons, forall_eq_or_imp, ih]
    cases hk : mapLookup y k <;> simp

/-- Deep equality of two inner Condition maps is deep equality of their
conversions to `interface{}` once both are nil or both are not. -/
theorem compareValues_boxMap_of_deepEqual (x y : Option (List (String × Value)))
    (hs : StringsOnly (boxMap x)) (h : deepEqualMap deepEqualValue x y = true) :
    compareValues (boxMap x) (boxMap y) = some true := by
  cases x with
  | none =>
    cases y with
    | none => simp [boxMap, compareValues, compareValuesRange]
    | some b => simp [deepEqualMap] at h
  | some a =>
    cases y with
    | none => simp [deepEqualMap] at h
    | some b =>
      apply compareValues_of_deepEqual _ _ hs
      simp only [deepEqualMap, Bool.and_eq_true, decide_eq_true_eq, List.all_eq_true] at h
      simp only [boxMap, deepEqualValue, Bool.and_eq_true, decide_eq_true_eq,
        deepEqualRange_eq_true_iff]
      refine ⟨h.1, fun kv hkv => ?_⟩
      have hkv1 := h.2 kv hkv
      cases hk : mapLookup b kv.1 with
      | none => simp [hk] at hkv1
      | some w =>
        simp only [hk] at hkv1
        exact ⟨w, rfl, hkv1⟩

theorem ConditionMap_Equals_of_deepEqual (c1 c2 : ConditionMap)
    (hs : ∀ kv ∈ c1.getD [], StringsOnly (boxMap kv.2))
    (h : deepEqualMap (deepEqualMap deepEqualValue) c1 c2 = true) :
    ConditionMap.Equals c1 c2 = some true := by
  cases c1 with
  | none =>
    cases c2 with
    | none => rfl
    | some b => simp [deepEqualMap] at h
  | some a =>
    cases c2 with
    | none => simp [deepEqualMap] at h
    | some b =>
      simp only [deepEqualMap, Bool.and_eq_true, decide_eq_true_eq, List.all_eq_true] at h
      simp only [ConditionMap.Equals, Option.getD_some, h.1, ne_eq, not_true_eq_false,
        if_false]
      rw [rangeAll_eq_true_iff]
      intro kv hkv
      have hkv1 := h.2 kv hkv
      cases hk : mapLookup b kv.1 with
      | none => simp [hk] at hkv1
      | some w =>
        simp only [hk] at hkv1
        rw [mapIndex_eq_getD, hk]
        exact compareValues_boxMap_of_deepEqual kv.2 w (hs kv hkv) hkv1

/-- Two deeply equal plain principal maps are variants of each other. -/
theorem principalVariant_of_deepEqual (ToUpper : String → String) (m1 m2 : PrincipalMap)
    (h1 : PlainPrincipal ToUpper m1) (h : deepEqualMap deepEqualValue m1 m2 = true) :
    PrincipalVariant ToUpper m1 m2 := by
  cases m1 with
  | none =>
    cases m2 with
    | none => exact ⟨rfl, fun e he => by simp at he⟩
    | some b => simp [deepEqualMap] at h
  | some a =>
    cases m2 with
    | none => simp [deepEqualMap] at h
    | some b =>
      simp only [deepEqualMap, Bool.and_eq_true, decide_eq_true_eq, List.all_eq_true] at h
      refine ⟨h.1, fun e1 he1 => ?_⟩
      have hk1 := h.2 e1 he1
      cases hk : mapLookup b e1.1 with
      | none => simp [hk] at hk1
      | some w =>
        simp only [hk] at hk1
        have hw := eq_of_deepEqualValue_of_strings e1.2 w (h1.2 e1 he1).2 hk1
        exact ⟨(e1.1, w), mem_of_mapLookup b e1.1 w hk, rfl, Or.inl hw⟩

theorem Statement_Equals_of_deepEqual (ToUpper : String → String) (s1 s2 : Statement)
    (h1 : ComparableStatement ToUpper s1) (h2 : ComparableStatement ToUpper s2)
    (h : deepEqualStatement s1 s2 = true) :
    Statement.Equals (normalizedStatement ToUpper s1) (normalizedStatement ToUpper s2)
      = some true := by
  simp only [deepEqualStatement, Bool.and_eq_true, decide_eq_true_eq] at h
  obtain ⟨⟨⟨⟨ha, hna⟩, he⟩, hp⟩, hc⟩ := h
  obtain ⟨hp1, ha1, hna1, hc1⟩ := h1
  unfold Statement.Equals
  simp only [normalizedStatement, andAlso_eq_true_iff]
  exact ⟨equalActionOrNotAction_of_deepEqual _ _ ha1 ha,
    equalActionOrNotAction_of_deepEqual _ _ hna1 hna, by simp [he],
    PrincipalMap_Equals_of_variant ToUpper _ _ hp1 h2.1
      (principalVariant_of_deepEqual ToUpper _ _ hp1 hp),
    ConditionMap_Equals_of_deepEqual _ _ hc1 hc⟩

theorem Policy_EqualsRange_of_deepEqual (ToUpper : String → String) :
    ∀ (l1 l2 : List Statement), deepEqualStatements l1 l2 = true →
      (∀ s ∈ l1, ComparableStatement ToUpper s) → (∀ s ∈ l2, ComparableStatement ToUpper s) →
      l1.length = l2.length ∧
        Policy.EqualsRange (l1.map (normalizedStatement ToUpper))
          (l2.map (normalizedStatement ToUpper)) = some true
  | [], [], _, _, _ => ⟨rfl, rfl⟩
  | [], _ :: _, h, _, _ => by simp [deepEqualStatements] at h
  | _ :: _, [], h, _, _ => by simp [deepEqualStatements] at h
  | s :: ss, t :: ts, h, h1, h2 => by
    simp only [deepEqualStatements, Bool.and_eq_true] at h
    have hst := Statement_Equals_of_deepEqual ToUpper s t (h1 s (List.mem_cons_self _ _))
      (h2 t (List.mem_cons_self _ _)) h.1
    obtain ⟨hlen, hr⟩ := Policy_EqualsRange_of_deepEqual ToUpper ss ts h.2
      (fun x hx => h1 x (List.mem_cons_of_mem _ hx))
      (fun x hx => h2 x (List.mem_cons_of_mem _ hx))
    exact ⟨by simp [hlen], by simp only [List.map_cons, Policy.EqualsRange, hst, hr]⟩

/-- The entry point is the `reflect.DeepEqual` check followed by
`remainingSteps`. -/
theorem AssumeRolePolicyDocumentAreEquivalent_eq (ToUpper : String → String) (p1 p2 : Policy) :
    AssumeRolePolicyDocumentAreEquivalent ToUpper p1 p2
      = if deepEqualPolicy p1 p2 then some (true, none) else remainingSteps ToUpper p1 p2 :=
  rfl

/-- Where the steps after the fast path agree with it: on two deeply equal
policies all of whose statements satisfy `ComparableStatement`, they return
`(true, nil)` as well. -/
theorem remainingSteps_of_deepEqual (ToUpper : String → String) (p1 p2 : Policy)
    (hde : deepEqualPolicy p1 p2 = true)
    (h1 : ∀ s ∈ p1.Statement.getD [], ComparableStatement ToUpper s)
    (h2 : ∀ s ∈ p2.Statement.getD [], ComparableStatement ToUpper s) :
    remainingSteps ToUpper p1 p2 = some (true, none) := by
  have hn1 := normalizeStatements_plain ToUpper (p1.Statement.getD []) (fun s hs => (h1 s hs).1)
  have hn2 := normalizeStatements_plain ToUpper (p2.Statement.getD []) (fun s hs => (h2 s hs).1)
  simp only [deepEqualPolicy, Bool.and_eq_true, decide_eq_true_eq] at hde
  obtain ⟨hver, hst⟩ := hde
  have hl : deepEqualStatements (p1.Statement.getD []) (p2.Statement.getD []) = true := by
    cases hs1 : p1.Statement <;> cases hs2 : p2.Statement <;> simp [hs1, hs2] at hst
    · rfl
    · simpa using hst
  obtain ⟨hlen, hr⟩ := Policy_EqualsRange_of_deepEqual ToUpper _ _ hl h1 h2
  simp only [remainingSteps, hn1, hn2]
  simp only [Policy.Equals, getD_map_normalized ToUpper _ _ hn1,
    getD_map_normalized ToUpper _ _ hn2, hver, List.length_map, hlen, ne_eq,
    not_true_eq_false, or_self, if_false, hr]

/-- The valid principal keys, spelled out. -/
theorem isValidPrincipalKey_iff (key : String) :
    isValidPrincipalKey key = true ↔ key = "RAM" ∨ key = "SERVICE" ∨ key = "FEDERATED" := by
  simp [isValidPrincipalKey, validPrincipalKeys]

/-! ## Letter case of one principal key (C1) -/

/-- C1, the code at the failing input: `p1` and `p2` are the same policy, with the
valid principal key ram and the array ["sts:AssumeRole"] as Action, and come
out as `(true, nil)`; with the key of `p2` written RAM, which has the same
upper-cased form, the outcome is `(false, nil)`: after normalization the two
principals are equal, but `equalActionOrNotAction` finds the two identical
decoded arrays different. -/
theorem C1_recasing_changes_result :
    asciiUpper "RAM" = asciiUpper "ram" ∧
      isValidPrincipalKey (asciiUpper "ram") = true ∧
      AssumeRolePolicyDocumentAreEquivalent asciiUpper
        ⟨"1", some [exStmt [("ram", .str "acs:ram::1:root")] (.arr [.str "sts:AssumeRole"])]⟩
        ⟨"1", some [exStmt [("ram", .str "acs:ram::1:root")] (.arr [.str "sts:AssumeRole"])]⟩
        = some (true, none) ∧
      AssumeRolePolicyDocumentAreEquivalent asciiUpper
        ⟨"1", some [exStmt [("ram", .str "acs:ram::1:root")] (.arr [.str "sts:AssumeRole"])]⟩
        ⟨"1", some [exStmt [("RAM", .str "acs:ram::1:root")] (.arr [.str "sts:AssumeRole"])]⟩
        = some (false, none) ∧
      PrincipalMap.Equals (some [("RAM", .strs ["acs:ram::1:root"])])
        (some [("RAM", .strs ["acs:ram::1:root"])]) = some true ∧
      equalActionOrNotAction (.arr [.str "sts:AssumeRole"]) (.arr [.str "sts:AssumeRole"])
        = some false :=
  ⟨rfl, rfl, rfl, rfl, rfl, rfl⟩

/-! ## Case and shape of principals (C2) -/

/-- C2: let `p1` and `p2` be decoded policies with the same Version whose
statements correspond position by position, corresponding statements being
identical except that principal keys of `p2` may be written in another letter
case and single-string principal values may be replaced by the one-element array
of the same string.  If in both policies every principal key upper-cases to RAM,
SERVICE or FEDERATED, no two keys of one mapping share an upper-cased form,
every principal value is a string or an array of strings, every Action and
NotAction is absent or a single string and every Condition is absent, then
`AssumeRolePolicyDocumentAreEquivalent` returns `(true, nil)`. -/
theorem C2_case_and_shape_neutralised (ToUpper : String → String) (p1 p2 : Policy)
    (hver : p2.Version = p1.Version)
    (hvar : List.Forall₂ (StatementVariant ToUpper) (p1.Statement.getD [])
      (p2.Statement.getD []))
    (h1 : ∀ s ∈ p1.Statement.getD [], PlainStatement ToUpper s)
    (h2 : ∀ s ∈ p2.Statement.getD [], PlainStatement ToUpper s) :
    AssumeRolePolicyDocumentAreEquivalent ToUpper p1 p2 = some (true, none) := by
  unfold AssumeRolePolicyDocumentAreEquivalent
  split
  · rfl
  · have hn1 := normalizeStatements_plain ToUpper (p1.Statement.getD []) (fun s hs => (h1 s hs).1)
    have hn2 := normalizeStatements_plain ToUpper (p2.Statement.getD []) (fun s hs => (h2 s hs).1)
    have hr := Policy_EqualsRange_of_variant ToUpper _ _ hvar h1 h2
    have hlen := hvar.length_eq
    simp only [hn1, hn2]
    simp only [Policy.Equals, getD_map_normalized ToUpper _ _ hn1,
      getD_map_normalized ToUpper _ _ hn2, hver, List.length_map, hlen, ne_eq,
      not_true_eq_false, or_self, if_false, hr]

/-- C2 at the example of the specification: Principal Service ↦ "ecs.aliyuncs.com"
against SERVICE ↦ ["ecs.aliyuncs.com"], both with Action "sts:AssumeRole". -/
theorem C2_case_and_shape_neutralised_witness :
    AssumeRolePolicyDocumentAreEquivalent asciiUpper
      ⟨"1", some [exStmt [("Service", .str "ecs.aliyuncs.com")] (.str "sts:AssumeRole")]⟩
      ⟨"1", some [exStmt [("SERVICE", .arr [.str "ecs.aliyuncs.com"])] (.str "sts:AssumeRole")]⟩
      = some (true, none) :=
  C2_case_and_shape_neutralised asciiUpper
    ⟨"1", some [exStmt [("Service", .str "ecs.aliyuncs.com")] (.str "sts:AssumeRole")]⟩
    ⟨"1", some [exStmt [("SERVICE", .arr [.str "ecs.aliyuncs.com"])] (.str "sts:AssumeRole")]⟩
    rfl
    (List.Forall₂.cons
      ⟨rfl, rfl, rfl, rfl, rfl, fun e1 he1 =>
        ⟨("SERVICE", .arr [.str "ecs.aliyuncs.com"]), List.mem_singleton.2 rfl, by
          rw [List.mem_singleton.1 he1]
          exact ⟨by decide, Or.inr ⟨"ecs.aliyuncs.com", rfl, rfl⟩⟩⟩⟩
      List.Forall₂.nil)
    (fun s hs => by
      rw [List.mem_singleton.1 hs]
      exact ⟨⟨by decide, fun kv hkv => by
        rw [List.mem_singleton.1 hkv]
        exact ⟨by decide, Or.inl ⟨_, rfl⟩⟩⟩, Or.inr ⟨_, rfl⟩, Or.inl rfl, rfl⟩)
    (fun s hs => by
      rw [List.mem_singleton.1 hs]
      exact ⟨⟨by decide, fun kv hkv => by
        rw [List.mem_singleton.1 hkv]
        exact ⟨by decide, Or.inr ⟨["ecs.aliyuncs.com"], rfl⟩⟩⟩, Or.inr ⟨_, rfl⟩, Or.inl rfl, rfl⟩)

/-! ## Invalid principal keys (C3) -/

/-- C3, counterexample: two deeply equal policies whose only principal key is
ADMIN, which is not a valid key, come out as `(true, nil)`: the fast path
returns before any key is looked at. -/
theorem C3_invalid_key_passes_fast_path :
    isValidPrincipalKey (asciiUpper "ADMIN") = false ∧
      AssumeRolePolicyDocumentAreEquivalent asciiUpper
        ⟨"1", some [exStmt [("ADMIN", .str "acs:ram::1:root")] (.str "sts:AssumeRole")]⟩
        ⟨"1", some [exStmt [("ADMIN", .str "acs:ram::1:root")] (.str "sts:AssumeRole")]⟩
        = some (true, none) :=
  ⟨rfl, rfl⟩

/-- C3, amended: when the two decoded policies are not deeply equal, every
principal value of both is a string or an array of strings, and some statement
of either has a principal key whose upper-cased form is not RAM, SERVICE or
FEDERATED, `AssumeRolePolicyDocumentAreEquivalent` returns false with a non-nil
error. -/
theorem C3_invalid_key_error (ToUpper : String → String) (p1 p2 : Policy)
    (hne : deepEqualPolicy p1 p2 = false)
    (hvals : ∀ s ∈ p1.Statement.getD [] ++ p2.Statement.getD [],
      ∀ kv ∈ s.Principal.getD [], IsStringOrStrings kv.2)
    (hbad : ∃ s ∈ p1.Statement.getD [] ++ p2.Statement.getD [],
      ∃ kv ∈ s.Principal.getD [], isValidPrincipalKey (ToUpper kv.1) = false) :
    ∃ msg, AssumeRolePolicyDocumentAreEquivalent ToUpper p1 p2 = some (false, some msg) := by
  obtain ⟨⟨x1, hx1⟩, herr1⟩ := normalizeStatements_of_strings ToUpper (p1.Statement.getD [])
    (fun s hs => hvals s (List.mem_append_left _ hs))
  obtain ⟨⟨x2, hx2⟩, herr2⟩ := normalizeStatements_of_strings ToUpper (p2.Statement.getD [])
    (fun s hs => hvals s (List.mem_append_right _ hs))
  simp only [AssumeRolePolicyDocumentAreEquivalent, hne, Bool.false_eq_true, if_false]
  cases x1 with
  | error msg => exact ⟨msg, by simp [hx1]⟩
  | ok ss1 =>
    have hbad2 : ∃ s ∈ p2.Statement.getD [], ∃ kv ∈ s.Principal.getD [],
        isValidPrincipalKey (ToUpper kv.1) = false := by
      obtain ⟨s, hs, hkv⟩ := hbad
      rcases List.mem_append.1 hs with hs | hs
      · obtain ⟨msg, hmsg⟩ := herr1 ⟨s, hs, hkv⟩
        rw [hmsg] at hx1
        simp at hx1
      · exact ⟨s, hs, hkv⟩
    obtain ⟨msg, hmsg⟩ := herr2 hbad2
    exact ⟨msg, by simp [hx1, hmsg]⟩

/-- C3, the amended statement at a policy with the principal key ADMIN against the
same policy with the key RAM. -/
theorem C3_invalid_key_error_witness :
    ∃ msg, AssumeRolePolicyDocumentAreEquivalent asciiUpper
      ⟨"1", some [exStmt [("ADMIN", .str "acs:ram::1:root")] (.str "sts:AssumeRole")]⟩
      ⟨"1", some [exStmt [("RAM", .str "acs:ram::1:root")] (.str "sts:AssumeRole")]⟩
      = some (false, some msg) :=
  C3_invalid_key_error asciiUpper
    ⟨"1", some [exStmt [("ADMIN", .str "acs:ram::1:root")] (.str "sts:AssumeRole")]⟩
    ⟨"1", some [exStmt [("RAM", .str "acs:ram::1:root")] (.str "sts:AssumeRole")]⟩
    (by decide)
    (by
      intro s hs kv hkv
      simp only [Option.getD_some, List.cons_append, List.nil_append, List.mem_cons,
        List.mem_singleton, List.not_mem_nil, or_false] at hs
      rcases hs with rfl | rfl <;>
        (simp only [exStmt, Option.getD_some, List.mem_singleton] at hkv
         subst hkv
         exact Or.inl ⟨_, rfl⟩))
    ⟨exStmt [("ADMIN", .str "acs:ram::1:root")] (.str "sts:AssumeRole"), by simp,
      ("ADMIN", .str "acs:ram::1:root"), by simp [exStmt], by decide⟩

/-! ## Normalizing twice (C4) -/

/-- C4, counterexample: `normalizePrincipal` succeeds on the principal with the one
entry RAM ↦ "acs:ram::1:root" and produces RAM ↦ `[]string` of that string; applied to that
result it returns the error of the `default` branch of its type switch, because
a `[]string` is neither a `string` nor a `[]interface{}`. -/
theorem C4_second_normalization_fails :
    normalizePrincipal asciiUpper (some [("RAM", .str "acs:ram::1:root")])
        = some (some [("RAM", .strs ["acs:ram::1:root"])], none) ∧
      normalizePrincipal asciiUpper (some [("RAM", .strs ["acs:ram::1:root"])])
        = some (some [("RAM", .strs ["acs:ram::1:root"])],
            some "Invalid principal key-value pair, key: RAM") :=
  ⟨rfl, rfl⟩

/-- C4, amended: when `normalizePrincipal` succeeds on `m` and produces `m1`, then
either `m1` is the empty map and a second application succeeds and leaves it
as it is, or `m1` is not empty and a second application returns a non-nil error
and leaves `m1` as it is. -/
theorem C4_second_normalization (ToUpper : String → String) (m m1 : PrincipalMap)
    (h : normalizePrincipal ToUpper m = some (m1, none)) :
    (m1 = some [] ∧ normalizePrincipal ToUpper m1 = some (m1, none)) ∨
      (m1 ≠ some [] ∧ ∃ msg, normalizePrincipal ToUpper m1 = some (m1, some msg)) := by
  obtain ⟨r, rfl, hr⟩ := normalizePrincipal_ok_allStrs ToUpper m m1 h
  cases r with
  | nil => exact Or.inl ⟨rfl, rfl⟩
  | cons e rest =>
    refine Or.inr ⟨by simp, ?_⟩
    obtain ⟨k, v⟩ := e
    obtain ⟨ss, hss⟩ := hr (k, v) (List.mem_cons_self _ _)
    simp only at hss
    subst hss
    obtain ⟨msg, hmsg⟩ := normalizePrincipalRange_strs_head ToUpper k ss rest []
    exact ⟨msg, by simp [normalizePrincipal, hmsg]⟩

/-- C4, the amended statement at the principal RAM ↦ "acs:ram::1:root". -/
theorem C4_second_normalization_witness :
    normalizePrincipal asciiUpper (some [("RAM", .str "acs:ram::1:root")])
        = some (some [("RAM", .strs ["acs:ram::1:root"])], none) ∧
      ((some [("RAM", Value.strs ["acs:ram::1:root"])] = some [] ∧
          normalizePrincipal asciiUpper (some [("RAM", .strs ["acs:ram::1:root"])])
            = some (some [("RAM", .strs ["acs:ram::1:root"])], none)) ∨
        (some [("RAM", Value.strs ["acs:ram::1:root"])] ≠ some [] ∧
          ∃ msg, normalizePrincipal asciiUpper (some [("RAM", .strs ["acs:ram::1:root"])])
            = some (some [("RAM", .strs ["acs:ram::1:root"])], some msg))) :=
  ⟨rfl, C4_second_normalization asciiUpper (some [("RAM", .str "acs:ram::1:root")])
    (some [("RAM", .strs ["acs:ram::1:root"])]) rfl⟩

/-! ## Action and NotAction (C5) -/

/-- C5, the code at the failing input: a decoded JSON array is a `[]interface{}`,
which no case of the type switch of `equalActionOrNotAction` matches, so the
array ["sts:AssumeRole"] is not equal to itself; two documents that differ only
in the letter case of a principal key and carry that array as Action come out
as `(false, nil)`. -/
theorem C5_decoded_arrays_never_equal :
    equalActionOrNotAction (.arr [.str "sts:AssumeRole"]) (.arr [.str "sts:AssumeRole"])
        = some false ∧
      AssumeRolePolicyDocumentAreEquivalent asciiUpper
        ⟨"1", some [exStmt [("Service", .str "ecs.aliyuncs.com")] (.arr [.str "sts:AssumeRole"])]⟩
        ⟨"1", some [exStmt [("SERVICE", .str "ecs.aliyuncs.com")] (.arr [.str "sts:AssumeRole"])]⟩
        = some (false, none) :=
  ⟨rfl, rfl⟩

/-! ## Conditions (C6, C7) -/

/-- C6, the code at the failing input: an explicitly empty Condition as receiver
is equal to an absent (nil) Condition, while the absent one as receiver is not
equal to the empty one. -/
theorem C6_empty_equals_absent :
    ConditionMap.Equals (some []) none = some true ∧
      ConditionMap.Equals none (some []) = some false :=
  ⟨rfl, rfl⟩

/-- C7, the code at the failing input: two Conditions with one operator each,
StringEquals and StringLike, both with an empty inner mapping, are equal: the
missing entry reads as a nil inner map, which has the map type and length 0. -/
theorem C7_different_operators_equal :
    ConditionMap.Equals (some [("StringEquals", some [])]) (some [("StringLike", some [])])
      = some true :=
  rfl

/-! ## The normalization steps (C8) -/

/-- C8: on a principal map in which no two keys share an upper-cased form and
every array value holds only strings, `normalizePrincipal` succeeds exactly
when every upper-cased key is RAM, SERVICE or FEDERATED and every value is a
string or an array; on success the map is replaced by a non-nil map with
pairwise distinct keys, whose keys are exactly the upper-cased keys of the old
map, in which a string `s` has become the `[]string` holding `s` and an array
has become the `[]string` of its elements in the same order. -/
theorem C8_normalizePrincipal_steps (ToUpper : String → String) (m : PrincipalMap)
    (hkeys : ((m.getD []).map (fun kv => ToUpper kv.1)).Nodup)
    (harr : ∀ kv ∈ m.getD [], ∀ xs, kv.2 = Value.arr xs → ∀ x ∈ xs, ∃ s, x = Value.str s) :
    ((∃ m1, normalizePrincipal ToUpper m = some (m1, none)) ↔
        ∀ kv ∈ m.getD [], isValidPrincipalKey (ToUpper kv.1) = true ∧
          ((∃ s, kv.2 = Value.str s) ∨ ∃ xs, kv.2 = Value.arr xs)) ∧
      ∀ m1, normalizePrincipal ToUpper m = some (m1, none) →
        ∃ new, m1 = some new ∧ (new.map Prod.fst).Nodup ∧
          (∀ K, K ∈ new.map Prod.fst ↔ ∃ kv ∈ m.getD [], ToUpper kv.1 = K) ∧
          (∀ k s, (k, Value.str s) ∈ m.getD [] →
            mapLookup new (ToUpper k) = some (Value.strs [s])) ∧
          (∀ k (ss : List String), (k, Value.arr (ss.map Value.str)) ∈ m.getD [] →
            mapLookup new (ToUpper k) = some (Value.strs ss)) := by
  refine ⟨⟨?_, ?_⟩, ?_⟩
  · rintro ⟨m1, h⟩ kv hkv
    obtain ⟨r, hr, -⟩ := (normalizePrincipal_ok_iff ToUpper m m1).1 h
    obtain ⟨hv, hs⟩ := normalizePrincipalRange_ok_entries ToUpper _ _ r hr kv hkv
    refine ⟨hv, ?_⟩
    rcases hs with hs | ⟨ss, hss⟩
    · exact Or.inl hs
    · exact Or.inr ⟨_, hss⟩
  · intro h
    have h1 : ∀ kv ∈ m.getD [], isValidPrincipalKey (ToUpper kv.1) = true ∧
        ((∃ s, kv.2 = Value.str s) ∨ ∃ ss : List String, kv.2 = Value.arr (ss.map Value.str)) := by
      intro kv hkv
      obtain ⟨hv, hs⟩ := h kv hkv
      refine ⟨hv, ?_⟩
      rcases hs with hs | ⟨xs, hxs⟩
      · exact Or.inl hs
      · obtain ⟨ss, rfl⟩ := exists_map_str_of_all_str xs (harr kv hkv xs hxs)
        exact Or.inr ⟨ss, hxs⟩
    obtain ⟨r, hr⟩ := normalizePrincipalRange_ok_of_entries ToUpper (m.getD []) [] h1
    exact ⟨some r, (normalizePrincipal_ok_iff ToUpper m (some r)).2 ⟨r, hr, rfl⟩⟩
  · intro m1 h
    obtain ⟨r, hr, rfl⟩ := (normalizePrincipal_ok_iff ToUpper m m1).1 h
    have hreq := normalizePrincipalRange_ok_eq ToUpper _ _ r hr hkeys (by simp)
    simp only [List.nil_append] at hreq
    have hfst : r.map Prod.fst = (m.getD []).map (fun kv => ToUpper kv.1) := by
      rw [hreq, List.map_map]
      rfl
    have hnd : (r.map Prod.fst).Nodup := hfst ▸ hkeys
    refine ⟨r, rfl, hnd, ?_, ?_, ?_⟩
    · intro K
      rw [hfst]
      simp [List.mem_map]
    · intro k s hk
      apply mapLookup_of_mem r _ _ hnd
      rw [hreq]
      exact List.mem_map.2 ⟨(k, Value.str s), hk, rfl⟩
    · intro k ss hk
      apply mapLookup_of_mem r _ _ hnd
      rw [hreq]
      refine List.mem_map.2 ⟨(k, Value.arr (ss.map Value.str)), hk, ?_⟩
      simp [normalizedEntry, toStringArray_map_str]

/-- C8 at the principal with the entries Service ↦ "ecs.aliyuncs.com" and
ram ↦ ["acs:ram::1:root", "acs:ram::2:root"]. -/
theorem C8_normalizePrincipal_steps_witness :
    ((∃ m1, normalizePrincipal asciiUpper (some [("Service", .str "ecs.aliyuncs.com"),
          ("ram", .arr [.str "acs:ram::1:root", .str "acs:ram::2:root"])]) = some (m1, none)) ↔
        ∀ kv ∈ (some [("Service", Value.str "ecs.aliyuncs.com"),
            ("ram", Value.arr [.str "acs:ram::1:root", .str "acs:ram::2:root"])]
              : PrincipalMap).getD [],
          isValidPrincipalKey (asciiUpper kv.1) = true ∧
            ((∃ s, kv.2 = Value.str s) ∨ ∃ xs, kv.2 = Value.arr xs)) ∧
      ∀ m1, normalizePrincipal asciiUpper (some [("Service", .str "ecs.aliyuncs.com"),
          ("ram", .arr [.str "acs:ram::1:root", .str "acs:ram::2:root"])]) = some (m1, none) →
        ∃ new, m1 = some new ∧ (new.map Prod.fst).Nodup ∧
          (∀ K, K ∈ new.map Prod.fst ↔
            ∃ kv ∈ (some [("Service", Value.str "ecs.aliyuncs.com"),
              ("ram", Value.arr [.str "acs:ram::1:root", .str "acs:ram::2:root"])]
                : PrincipalMap).getD [], asciiUpper kv.1 = K) ∧
          (∀ k s, (k, Value.str s) ∈ (some [("Service", Value.str "ecs.aliyuncs.com"),
              ("ram", Value.arr [.str "acs:ram::1:root", .str "acs:ram::2:root"])]
                : PrincipalMap).getD [] →
            mapLookup new (asciiUpper k) = some (Value.strs [s])) ∧
          (∀ k (ss : List String), (k, Value.arr (ss.map Value.str)) ∈
              (some [("Service", Value.str "ecs.aliyuncs.com"),
                ("ram", Value.arr [.str "acs:ram::1:root", .str "acs:ram::2:root"])]
                  : PrincipalMap).getD [] →
            mapLookup new (asciiUpper k) = some (Value.strs ss)) :=
  C8_normalizePrincipal_steps asciiUpper
    (some [("Service", .str "ecs.aliyuncs.com"),
      ("ram", .arr [.str "acs:ram::1:root", .str "acs:ram::2:root"])])
    (by decide)
    (by
      intro kv hkv xs hxs x hx
      simp only [Option.getD_some, List.mem_cons, List.mem_singleton, List.not_mem_nil,
        or_false] at hkv
      rcases hkv with rfl | rfl
      · simp at hxs
      · simp only [Value.arr.injEq] at hxs
        subst hxs
        simp only [List.mem_cons, List.mem_singleton, List.not_mem_nil, or_false] at hx
        rcases hx with rfl | rfl
        · exact ⟨_, rfl⟩
        · exact ⟨_, rfl⟩)

/-! ## Non-string array elements (C9) -/

/-- C9, the code at the failing input: on the principal RAM ↦ [1], whose key is
valid, the unchecked type assertion `val.(string)` panics; no error is
returned. -/
theorem C9_non_string_element_panics :
    isValidPrincipalKey (asciiUpper "RAM") = true ∧
      normalizePrincipal asciiUpper (some [("RAM", .arr [.num 1])]) = none :=
  ⟨rfl, rfl⟩

/-! ## Policies are compared position by position (C10) -/

/-- C10: `Policy.Equals` always returns, and returns true exactly when the two
Version strings are identical, the two statement sequences have the same length
and `Statement.Equals` is true for the pair of statements at every position;
`policyACS.Equals` returns true under the same condition on its own fields.
Statements are not matched across positions: when `Equals` is false for two
statements, in one order or the other, the policy holding them is not `Equals`
to the policy holding them swapped. -/
theorem C10_policy_equals_positional :
    (∀ p other : Policy,
      (∃ r, Policy.Equals p other = some r) ∧
      (Policy.Equals p other = some true ↔
        p.Version = other.Version ∧
        (p.Statement.getD []).length = (other.Statement.getD []).length ∧
        ∀ st ∈ (p.Statement.getD []).zip (other.Statement.getD []),
          Statement.Equals st.1 st.2 = some true)) ∧
    (∀ p other : policyACS,
      policyACS.Equals p other = some true ↔
        p.Version = other.Version ∧ p.Statement.length = other.Statement.length ∧
        ∀ st ∈ p.Statement.zip other.Statement,
          policyStatementACS.Equals st.1 st.2 = some true) ∧
    (∀ (v : String) (s1 s2 : Statement),
      Statement.Equals s1 s2 = some false ∨ Statement.Equals s2 s1 = some false →
      Policy.Equals ⟨v, some [s1, s2]⟩ ⟨v, some [s2, s1]⟩ = some false) ∧
    (∀ (v : String) (s1 s2 : policyStatementACS),
      policyStatementACS.Equals (some s1) (some s2) = some false ∨
        policyStatementACS.Equals (some s2) (some s1) = some false →
      policyACS.Equals ⟨v, [some s1, some s2]⟩ ⟨v, [some s2, some s1]⟩ = some false) := by
  refine ⟨fun p other => ⟨Policy_Equals_isSome p other, ?_⟩, fun p other => ?_, ?_, ?_⟩
  · unfold Policy.Equals
    split
    · rename_i h
      constructor
      · intro hf
        simp at hf
      · rintro ⟨hv, hl, -⟩
        rcases h with h | h
        · exact absurd hv h
        · exact absurd hl h
    · rename_i h
      simp only [ne_eq, not_or, not_not] at h
      rw [Policy_EqualsRange_eq_true_iff _ _ h.2]
      simp [h.1, h.2]
  · unfold policyACS.Equals
    split
    · rename_i h
      constructor
      · intro hf
        simp at hf
      · rintro ⟨hv, hl, -⟩
        rcases h with h | h
        · exact absurd hv h
        · exact absurd hl h
    · rename_i h
      simp only [ne_eq, not_or, not_not] at h
      rw [policyACS_EqualsRange_eq_true_iff _ _ h.2]
      simp [h.1, h.2]
  · intro v s1 s2 h
    rcases h with h | h
    · simp [Policy.Equals, Policy.EqualsRange, h]
    · obtain ⟨r, hr⟩ := Statement_Equals_isSome s1 s2
      cases r <;> simp [Policy.Equals, Policy.EqualsRange, h, hr]
  · intro v s1 s2 h
    rcases h with h | h
    · simp [policyACS.Equals, policyACS.EqualsRange, h]
    · obtain ⟨r, hr⟩ := policyStatementACS_Equals_isSome s1 s2
      cases r <;> simp [policyACS.Equals, policyACS.EqualsRange, h, hr]

/-- C10 at two statements that differ in their principal: the policy holding them
is not `Equals` to the policy holding them swapped. -/
theorem C10_policy_equals_positional_witness :
    Statement.Equals (exStmt [("RAM", .strs ["acs:ram::1:root"])] (.str "sts:AssumeRole"))
        (exStmt [("SERVICE", .strs ["ecs.aliyuncs.com"])] (.str "sts:AssumeRole")) = some false ∧
      Policy.Equals
        ⟨"1", some [exStmt [("RAM", .strs ["acs:ram::1:root"])] (.str "sts:AssumeRole"),
          exStmt [("SERVICE", .strs ["ecs.aliyuncs.com"])] (.str "sts:AssumeRole")]⟩
        ⟨"1", some [exStmt [("SERVICE", .strs ["ecs.aliyuncs.com"])] (.str "sts:AssumeRole"),
          exStmt [("RAM", .strs ["acs:ram::1:root"])] (.str "sts:AssumeRole")]⟩ = some false :=
  ⟨rfl, C10_policy_equals_positional.2.2.1 "1" _ _ (Or.inl rfl)⟩

/-! ## Equality of normalized principals (C11) -/

/-- C11: for two principal maps `m1` and `m2` that are outputs of a successful
`normalizePrincipal`, `PrincipalMap.Equals` is true exactly when they have the
same keys and, under every key, sequences of the same length with equal strings
at every position.  Hence replacing the sequence under one key of `m1` by a
different one, such as one with a changed identifier or with two distinct
neighbouring identifiers swapped, gives a map that `m1` is not `Equals` to. -/
theorem C11_principal_equality (ToUpper : String → String) (raw1 raw2 m1 m2 : PrincipalMap)
    (h1 : normalizePrincipal ToUpper raw1 = some (m1, none))
    (h2 : normalizePrincipal ToUpper raw2 = some (m2, none)) :
    (PrincipalMap.Equals m1 m2 = some true ↔
        (∀ K, K ∈ (m1.getD []).map Prod.fst ↔ K ∈ (m2.getD []).map Prod.fst) ∧
          ∀ K ss1 ss2, mapLookup (m1.getD []) K = some (Value.strs ss1) →
            mapLookup (m2.getD []) K = some (Value.strs ss2) →
            ss1.length = ss2.length ∧
              ∀ i (hi1 : i < ss1.length) (hi2 : i < ss2.length),
                ss1.get ⟨i, hi1⟩ = ss2.get ⟨i, hi2⟩) ∧
      (∀ a b K ss ssNew, m1 = some (a ++ (K, Value.strs ss) :: b) → ssNew ≠ ss →
        PrincipalMap.Equals m1 (some (a ++ (K, Value.strs ssNew) :: b)) = some false) ∧
      (∀ a b K pre x y post, m1 = some (a ++ (K, Value.strs (pre ++ x :: y :: post)) :: b) →
        x ≠ y →
        PrincipalMap.Equals m1 (some (a ++ (K, Value.strs (pre ++ y :: x :: post)) :: b))
          = some false) := by
  obtain ⟨l1, rfl, hnd1, hs1⟩ := normalizePrincipal_ok_shape ToUpper raw1 m1 h1
  obtain ⟨l2, rfl, hnd2, hs2⟩ := normalizePrincipal_ok_shape ToUpper raw2 m2 h2
  have hchange : ∀ a b K ss ssNew, (some l1 : PrincipalMap) = some (a ++ (K, Value.strs ss) :: b) →
      ssNew ≠ ss →
      PrincipalMap.Equals (some l1) (some (a ++ (K, Value.strs ssNew) :: b)) = some false := by
    intro a b K ss ssNew hl hne
    simp only [Option.some.injEq] at hl
    subst hl
    obtain ⟨r, hr⟩ := PrincipalMap_Equals_isSome (some (a ++ (K, Value.strs ss) :: b))
      (some (a ++ (K, Value.strs ssNew) :: b))
    cases r with
    | false => exact hr
    | true =>
      exfalso
      unfold PrincipalMap.Equals at hr
      simp only [Option.getD_some, List.length_append, List.length_cons, ne_eq,
        not_true_eq_false, if_false] at hr
      rw [rangeAll_eq_true_iff] at hr
      have hk := hr (K, Value.strs ss) (by simp)
      have hndNew : ((a ++ (K, Value.strs ssNew) :: b).map Prod.fst).Nodup := by
        simpa using hnd1
      rw [mapIndex_of_mem Value.null _ K (Value.strs ssNew) hndNew (by simp)] at hk
      exact hne ((compareValues_strs_eq_true_iff ss ssNew).1 hk).symm
  refine ⟨?_, hchange, ?_⟩
  · have hequals : PrincipalMap.Equals (some l1) (some l2) = some true ↔
        (l1.length = l2.length ∧
          ∀ kv ∈ l1, compareValues kv.2 (mapIndex Value.null l2 kv.1) = some true) := by
      unfold PrincipalMap.Equals
      simp only [Option.getD_some]
      split
      · rename_i hne
        constructor
        · intro hf
          simp at hf
        · exact fun hlen => absurd hlen.1 hne
      · rename_i hne
        simp only [ne_eq, not_not] at hne
        simp [hne, rangeAll_eq_true_iff]
    rw [hequals, compare_entries_iff l1 l2 hnd1 hnd2]
    simp only [Option.getD_some]
    constructor
    · rintro ⟨hkeys, hall⟩
      refine ⟨hkeys, ?_⟩
      intro K ss1 ss2 hl1 hl2
      have hK : K ∈ l1.map Prod.fst :=
        List.mem_map.2 ⟨(K, Value.strs ss1), mem_of_mapLookup l1 K _ hl1, rfl⟩
      have hc := hall K hK
      rw [mapIndex_eq_getD, mapIndex_eq_getD, hl1, hl2] at hc
      have heq := (compareValues_strs_eq_true_iff ss1 ss2).1 hc
      subst heq
      exact ⟨rfl, fun _ _ _ => rfl⟩
    · rintro ⟨hkeys, hall⟩
      refine ⟨hkeys, ?_⟩
      intro K hK
      obtain ⟨kv1, hkv1, rfl⟩ := List.mem_map.1 hK
      obtain ⟨kv2, hkv2, hk2⟩ := List.mem_map.1 ((hkeys kv1.1).1 hK)
      obtain ⟨ss1, hss1⟩ := hs1 kv1 hkv1
      obtain ⟨ss2, hss2⟩ := hs2 kv2 hkv2
      have hl1 : mapLookup l1 kv1.1 = some (Value.strs ss1) :=
        mapLookup_of_mem l1 _ _ hnd1 (by rw [← hss1]; exact hkv1)
      have hl2 : mapLookup l2 kv1.1 = some (Value.strs ss2) :=
        mapLookup_of_mem l2 _ _ hnd2 (by rw [← hss2, ← hk2]; exact hkv2)
      obtain ⟨hlen, hget⟩ := hall kv1.1 ss1 ss2 hl1 hl2
      have heq : ss1 = ss2 := List.ext_get hlen hget
      rw [mapIndex_eq_getD, mapIndex_eq_getD, hl1, hl2, heq]
      exact (compareValues_strs_eq_true_iff ss2 ss2).2 rfl
  · intro a b K pre x y post hl hxy
    refine hchange a b K _ _ hl ?_
    intro heq
    have h3 := List.append_cancel_left heq
    simp only [List.cons.injEq] at h3
    exact hxy h3.1.symm

/-- C11 at the normalized principal RAM ↦ ["acs:ram::1:root", "acs:ram::2:root"]
against the same with the two identifiers in the other order. -/
theorem C11_principal_equality_witness :
    PrincipalMap.Equals (some [("RAM", .strs ["acs:ram::1:root", "acs:ram::2:root"])])
      (some [("RAM", .strs ["acs:ram::2:root", "acs:ram::1:root"])]) = some false :=
  (C11_principal_equality asciiUpper
    (some [("ram", .arr [.str "acs:ram::1:root", .str "acs:ram::2:root"])])
    (some [("ram", .arr [.str "acs:ram::1:root", .str "acs:ram::2:root"])])
    (some [("RAM", .strs ["acs:ram::1:root", "acs:ram::2:root"])])
    (some [("RAM", .strs ["acs:ram::1:root", "acs:ram::2:root"])])
    rfl rfl).2.2 [] [] "RAM" [] "acs:ram::1:root" "acs:ram::2:root" [] rfl (by decide)

/-! ## A single statement object (C12) -/

/-- C12, counterexample: with a single JSON object as top-level Statement,
`document` returns the error of the `default` branch of its type switch and no
policy, whatever the decoder of arrays does (here it is never called). -/
theorem C12_single_object_rejected :
    intermediatePolicyACS.document (fun _ => Except.ok [])
        ⟨"1", .obj [("Effect", .str "Allow"), ("Principal", .obj [("RAM", .str "acs:ram::1:root")]),
          ("Action", .str "sts:AssumeRole")]⟩
      = Except.error "unknown statement parsing problem" :=
  rfl

/-- C12, amended: when the decoded top-level Statement is a single JSON object,
`document` fails with the error "unknown statement parsing problem"; it
succeeds with no statement when Statement is absent, and returns what the
decoder returns (its error, or a policy with the decoded statements) when
Statement is an array. -/
theorem C12_document_cases
    (decode : List Value → Except String (List (Option policyStatementACS)))
    (version : String) :
    (∀ kvs, intermediatePolicyACS.document decode ⟨version, .obj kvs⟩
        = Except.error "unknown statement parsing problem") ∧
      intermediatePolicyACS.document decode ⟨version, .null⟩ = Except.ok ⟨version, []⟩ ∧
      ∀ s, intermediatePolicyACS.document decode ⟨version, .arr s⟩
        = (match decode s with
          | .error err => Except.error err
          | .ok statement => Except.ok ⟨version, statement⟩) :=
  ⟨fun _ => rfl, rfl, fun _ => rfl⟩

/-! ## Reflexivity (C13) -/

/-- C13: a decoded policy compared with itself gives `(true, nil)`, in both entry
points, whatever its principal keys, Action shapes and Condition leaves are: the
`reflect.DeepEqual` check succeeds.  The hypotheses say that the maps of the
decoded document have pairwise distinct keys, as every Go map has. -/
theorem C13_reflexivity (ToUpper : String → String)
    (decode : List Value → Except String (List (Option policyStatementACS))) :
    (∀ p : Policy, WellFormedPolicy p →
        AssumeRolePolicyDocumentAreEquivalent ToUpper p p = some (true, none)) ∧
      ∀ i : intermediatePolicyACS, DistinctKeys i.Statement →
        AssumeRolePolicyDocumentAreEquivalentV2 ToUpper decode i i = some (true, none) := by
  constructor
  · intro p hp
    simp [AssumeRolePolicyDocumentAreEquivalent, deepEqualPolicy_refl p hp]
  · intro i hi
    simp [AssumeRolePolicyDocumentAreEquivalentV2, deepEqualIntermediate,
      deepEqualValue_refl _ hi]

/-- C13 at a policy with the principal key ADMIN, an array as Action and a number
as Condition leaf. -/
theorem C13_reflexivity_witness :
    AssumeRolePolicyDocumentAreEquivalent asciiUpper
      ⟨"1", some [exStmtWith [("ADMIN", .num 1)] (.arr [.str "sts:AssumeRole"])
        (some [("NumericEquals", some [("acs:MFAPresent", .num 1)])])]⟩
      ⟨"1", some [exStmtWith [("ADMIN", .num 1)] (.arr [.str "sts:AssumeRole"])
        (some [("NumericEquals", some [("acs:MFAPresent", .num 1)])])]⟩
      = some (true, none) :=
  (C13_reflexivity asciiUpper (fun _ => Except.ok [])).1 _ (by
    intro s hs
    simp only [Option.getD_some, List.mem_singleton] at hs
    subst hs
    simp [exStmtWith, DistinctKeys, DistinctKeysSlice, DistinctKeysMap])

/-! ## The order of the entries (C14) -/

/-- C14, counterexample: the entries ram ↦ "a" and RAM ↦ "b" visited in this
order normalize to RAM ↦ ["b"], visited in the other order to RAM ↦ ["a"]: both
runs succeed, with different maps. -/
theorem C14_colliding_keys_order_dependent :
    normalizePrincipal asciiUpper (some [("ram", .str "a"), ("RAM", .str "b")])
        = some (some [("RAM", .strs ["b"])], none) ∧
      normalizePrincipal asciiUpper (some [("RAM", .str "b"), ("ram", .str "a")])
        = some (some [("RAM", .strs ["a"])], none) :=
  ⟨rfl, rfl⟩

/-- C14, amended: for two enumeration orders `l1` and `l2` of the same entries, of
which no two keys share an upper-cased form, `normalizePrincipal` succeeds for
both or for neither, and when it succeeds the two normalized maps hold the same
entries: every key has the same value in both. -/
theorem C14_order_invariance (ToUpper : String → String) (l1 l2 : List (String × Value))
    (hperm : l1.Perm l2) (hkeys : (l1.map (fun kv => ToUpper kv.1)).Nodup) :
    ((∃ m1, normalizePrincipal ToUpper (some l1) = some (m1, none)) ↔
        ∃ m2, normalizePrincipal ToUpper (some l2) = some (m2, none)) ∧
      ∀ m1 m2, normalizePrincipal ToUpper (some l1) = some (m1, none) →
        normalizePrincipal ToUpper (some l2) = some (m2, none) →
        ∃ r1 r2, m1 = some r1 ∧ m2 = some r2 ∧ r1.Perm r2 ∧
          ∀ K, mapLookup r1 K = mapLookup r2 K := by
  have hkeys2 : (l2.map (fun kv => ToUpper kv.1)).Nodup :=
    ((hperm.map _).nodup_iff).1 hkeys
  have key : ∀ (a b : List (String × Value)), a.Perm b →
      (∃ m1, normalizePrincipal ToUpper (some a) = some (m1, none)) →
      ∃ m2, normalizePrincipal ToUpper (some b) = some (m2, none) := by
    rintro a b hab ⟨m1, h⟩
    obtain ⟨r, hr, -⟩ := (normalizePrincipal_ok_iff ToUpper _ m1).1 h
    have he := normalizePrincipalRange_ok_entries ToUpper _ _ r hr
    obtain ⟨r2, hr2⟩ := normalizePrincipalRange_ok_of_entries ToUpper b []
      (fun kv hkv => he kv (hab.mem_iff.2 hkv))
    exact ⟨some r2, (normalizePrincipal_ok_iff ToUpper _ _).2 ⟨r2, hr2, rfl⟩⟩
  refine ⟨⟨key l1 l2 hperm, key l2 l1 hperm.symm⟩, ?_⟩
  intro m1 m2 h1 h2
  obtain ⟨r1, hr1, rfl⟩ := (normalizePrincipal_ok_iff ToUpper _ m1).1 h1
  obtain ⟨r2, hr2, rfl⟩ := (normalizePrincipal_ok_iff ToUpper _ m2).1 h2
  have e1 := normalizePrincipalRange_ok_eq ToUpper _ _ r1 hr1 hkeys (by simp)
  have e2 := normalizePrincipalRange_ok_eq ToUpper _ _ r2 hr2 hkeys2 (by simp)
  simp only [Option.getD_some, List.nil_append] at e1 e2
  have hp : r1.Perm r2 := by
    rw [e1, e2]
    exact hperm.map _
  have hnd : (r1.map Prod.fst).Nodup := by
    rw [e1, List.map_map]
    exact hkeys
  exact ⟨r1, r2, rfl, rfl, hp, fun K => mapLookup_perm r1 r2 K hp hnd⟩

/-- C14, the amended statement at the entries Service ↦ "ecs.aliyuncs.com" and
ram ↦ "acs:ram::1:root" in their two orders. -/
theorem C14_order_invariance_witness :
    ((∃ m1, normalizePrincipal asciiUpper (some [("Service", .str "ecs.aliyuncs.com"),
          ("ram", .str "acs:ram::1:root")]) = some (m1, none)) ↔
        ∃ m2, normalizePrincipal asciiUpper (some [("ram", .str "acs:ram::1:root"),
          ("Service", .str "ecs.aliyuncs.com")]) = some (m2, none)) ∧
      ∀ m1 m2, normalizePrincipal asciiUpper (some [("Service", .str "ecs.aliyuncs.com"),
          ("ram", .str "acs:ram::1:root")]) = some (m1, none) →
        normalizePrincipal asciiUpper (some [("ram", .str "acs:ram::1:root"),
          ("Service", .str "ecs.aliyuncs.com")]) = some (m2, none) →
        ∃ r1 r2, m1 = some r1 ∧ m2 = some r2 ∧ r1.Perm r2 ∧
          ∀ K, mapLookup r1 K = mapLookup r2 K :=
  C14_order_invariance asciiUpper
    [("Service", .str "ecs.aliyuncs.com"), ("ram", .str "acs:ram::1:root")]
    [("ram", .str "acs:ram::1:root"), ("Service", .str "ecs.aliyuncs.com")]
    (List.Perm.swap _ _ _) (by decide)

/-! ## The value comparator is total (C15) -/

/-- C15: `compareValues` returns a boolean, without panic, on every pair of
values; `equalStrings` and the loop of `equalInterfaces` return on slices of
equal length, which is how `compareValues` calls them, and `equalInterfaces`
itself returns on every pair of slices. -/
theorem C15_compareValues_total :
    (∀ a b : Value, ∃ r, compareValues a b = some r) ∧
      (∀ a b : List String, a.length = b.length → ∃ r, equalStrings a b = some r) ∧
      (∀ a b : List Value, a.length = b.length → ∃ r, equalInterfacesRange a b = some r) ∧
      (∀ a b : List Value, ∃ r, equalInterfaces a b = some r) := by
  refine ⟨compareValues_isSome, equalStrings_isSome, equalInterfacesRange_isSome, ?_⟩
  intro a b
  unfold equalInterfaces
  split
  · exact ⟨false, rfl⟩
  · rename_i h
    exact equalInterfacesRange_isSome a b (by simpa using h)

/-- C15 at two string slices of length 2; on a shorter second slice the loop of
`equalStrings` alone would index out of range. -/
theorem C15_compareValues_total_witness :
    (∃ r, equalStrings ["a", "b"] ["a", "c"] = some r) ∧ equalStrings ["a"] [] = none :=
  ⟨C15_compareValues_total.2.1 ["a", "b"] ["a", "c"] rfl, rfl⟩

/-! ## The mapping rule of the value comparator (C16) -/

/-- C16: for two mappings `a` and `b` (Go maps, so with pairwise distinct keys),
`compareValues` is true exactly when `a` and `b` have the same keys and
`compareValues(a[k], b[k])` is true for every key; two mappings of equal size of
which one has a key that the other lacks compare as false, because any value
compared with a missing entry gives false. -/
theorem C16_mapping_rule (a b : List (String × Value))
    (ha : (a.map Prod.fst).Nodup) (hb : (b.map Prod.fst).Nodup) :
    (compareValues (.obj a) (.obj b) = some true ↔
        (∀ k, k ∈ a.map Prod.fst ↔ k ∈ b.map Prod.fst) ∧
          ∀ k ∈ a.map Prod.fst,
            compareValues (mapIndex Value.null a k) (mapIndex Value.null b k) = some true) ∧
      (a.length = b.length → (∃ k ∈ a.map Prod.fst, k ∉ b.map Prod.fst) →
        compareValues (.obj a) (.obj b) = some false) ∧
      ∀ (v : Value) (k : String), k ∉ b.map Prod.fst →
        compareValues v (mapIndex Value.null b k) = some false := by
  have hiff : compareValues (.obj a) (.obj b) = some true ↔
      (∀ k, k ∈ a.map Prod.fst ↔ k ∈ b.map Prod.fst) ∧
        ∀ k ∈ a.map Prod.fst,
          compareValues (mapIndex Value.null a k) (mapIndex Value.null b k) = some true := by
    rw [← compare_entries_iff a b ha hb, ← compareValuesRange_eq_true_iff]
    simp only [compareValues]
    split
    · rename_i hne
      constructor
      · intro hf
        simp at hf
      · exact fun hlen => absurd hlen.1 hne
    · rename_i hne
      simp only [ne_eq, not_not] at hne
      simp [hne]
  refine ⟨hiff, ?_, fun v k hk => compareValues_missing v b k hk⟩
  rintro - ⟨k, hka, hkb⟩
  obtain ⟨r, hr⟩ := compareValues_isSome (.obj a) (.obj b)
  cases r with
  | false => exact hr
  | true => exact absurd ((hiff.1 hr).1 k |>.1 hka) hkb

/-- C16 at the mappings with the one entry a ↦ "x" and the one entry b ↦ "x":
equal size, different keys, not equal. -/
theorem C16_mapping_rule_witness :
    compareValues (.obj [("a", .str "x")]) (.obj [("b", .str "x")]) = some false :=
  (C16_mapping_rule [("a", .str "x")] [("b", .str "x")] (by decide) (by decide)).2.1 rfl
    ⟨"a", by decide, by decide⟩

/-! ## Length of the normalized values (C17) -/

/-- C17, counterexample: on the principal RAM ↦ [], an empty array,
`normalizePrincipal` succeeds and stores the empty `[]string`. -/
theorem C17_empty_array_stays_empty :
    normalizePrincipal asciiUpper (some [("RAM", .arr [])])
      = some (some [("RAM", .strs [])], none) :=
  rfl

/-- C17, amended: after `normalizePrincipal` succeeds on a principal map none of
whose values is the empty array, every value of the resulting map is a
`[]string` of length at least 1. -/
theorem C17_normalized_values_nonempty (ToUpper : String → String) (m m1 : PrincipalMap)
    (h : normalizePrincipal ToUpper m = some (m1, none))
    (hne : ∀ e ∈ m.getD [], e.2 ≠ Value.arr []) :
    ∃ newPrincipal, m1 = some newPrincipal ∧
      ∀ kv ∈ newPrincipal, ∃ ss : List String, kv.2 = Value.strs ss ∧ 1 ≤ ss.length := by
  obtain ⟨r, hr, rfl⟩ := (normalizePrincipal_ok_iff ToUpper m m1).1 h
  refine ⟨r, rfl, fun kv hkv => ?_⟩
  rcases normalizePrincipalRange_origin ToUpper _ _ r hr kv hkv with h1 | ⟨e, he, rfl⟩
  · simp at h1
  · obtain ⟨k, v⟩ := e
    rcases (normalizePrincipalRange_ok_entries ToUpper _ _ r hr (k, v) he).2 with
      ⟨s, hs⟩ | ⟨ss, hss⟩
    · simp only at hs
      subst hs
      exact ⟨[s], rfl, by simp⟩
    · simp only at hss
      subst hss
      refine ⟨ss, by simp [normalizedEntry, toStringArray_map_str], ?_⟩
      cases ss with
      | nil => exact absurd rfl (hne _ he)
      | cons x rest => simp

/-- C17, the amended statement at the principal with the entries
Service ↦ "ecs.aliyuncs.com" and RAM ↦ ["acs:ram::1:root"]. -/
theorem C17_normalized_values_nonempty_witness :
    ∃ newPrincipal, (some [("SERVICE", Value.strs ["ecs.aliyuncs.com"]),
        ("RAM", Value.strs ["acs:ram::1:root"])] : PrincipalMap) = some newPrincipal ∧
      ∀ kv ∈ newPrincipal, ∃ ss : List String, kv.2 = Value.strs ss ∧ 1 ≤ ss.length :=
  C17_normalized_values_nonempty asciiUpper
    (some [("Service", .str "ecs.aliyuncs.com"), ("RAM", .arr [.str "acs:ram::1:root"])])
    (some [("SERVICE", .strs ["ecs.aliyuncs.com"]), ("RAM", .strs ["acs:ram::1:root"])])
    rfl
    (by
      intro e he
      simp only [Option.getD_some, List.mem_cons, List.mem_singleton, List.not_mem_nil,
        or_false] at he
      rcases he with rfl | rfl <;> simp)

/-! ## Symmetry (C18) -/

/-- C18, the code at the failing input: `p` has an explicitly empty Condition and
`q` has none, everything else being the same.  After normalization
`p.Equals(q)` is true and `q.Equals(p)` is false, and the entry point returns
`(true, nil)` for the documents in one order and `(false, nil)` in the other. -/
theorem C18_equals_not_symmetric :
    Policy.Equals
        ⟨"1", some [exStmtWith [("RAM", .strs ["acs:ram::1:root"])] (.str "sts:AssumeRole")
          (some [])]⟩
        ⟨"1", some [exStmtWith [("RAM", .strs ["acs:ram::1:root"])] (.str "sts:AssumeRole")
          none]⟩ = some true ∧
      Policy.Equals
        ⟨"1", some [exStmtWith [("RAM", .strs ["acs:ram::1:root"])] (.str "sts:AssumeRole")
          none]⟩
        ⟨"1", some [exStmtWith [("RAM", .strs ["acs:ram::1:root"])] (.str "sts:AssumeRole")
          (some [])]⟩ = some false ∧
      AssumeRolePolicyDocumentAreEquivalent asciiUpper
        ⟨"1", some [exStmtWith [("RAM", .str "acs:ram::1:root")] (.str "sts:AssumeRole")
          (some [])]⟩
        ⟨"1", some [exStmtWith [("RAM", .str "acs:ram::1:root")] (.str "sts:AssumeRole")
          none]⟩ = some (true, none) ∧
      AssumeRolePolicyDocumentAreEquivalent asciiUpper
        ⟨"1", some [exStmtWith [("RAM", .str "acs:ram::1:root")] (.str "sts:AssumeRole")
          none]⟩
        ⟨"1", some [exStmtWith [("RAM", .str "acs:ram::1:root")] (.str "sts:AssumeRole")
          (some [])]⟩ = some (false, none) :=
  ⟨rfl, rfl, rfl, rfl⟩

/-! ## The fast path against the remaining steps (C19) -/

/-- C19, the code at the failing input: a policy with the valid principal key ram,
the Action "sts:AssumeRole" and the Condition Bool ↦ (acs:MFAPresent ↦ true) is
deeply equal to itself, so the entry point returns `(true, nil)`, while the
remaining steps run on the same pair return `(false, nil)`: `compareValues` has
no case for a boolean and finds the leaf different from itself.  The same
happens without any Condition when the Action is the array ["sts:AssumeRole"],
which `equalActionOrNotAction` finds different from itself. -/
theorem C19_remaining_steps_differ :
    deepEqualPolicy
        ⟨"1", some [exStmtWith [("ram", .str "acs:ram::1:root")] (.str "sts:AssumeRole")
          (some [("Bool", some [("acs:MFAPresent", .bool true)])])]⟩
        ⟨"1", some [exStmtWith [("ram", .str "acs:ram::1:root")] (.str "sts:AssumeRole")
          (some [("Bool", some [("acs:MFAPresent", .bool true)])])]⟩
        = true ∧
      remainingSteps asciiUpper
        ⟨"1", some [exStmtWith [("ram", .str "acs:ram::1:root")] (.str "sts:AssumeRole")
          (some [("Bool", some [("acs:MFAPresent", .bool true)])])]⟩
        ⟨"1", some [exStmtWith [("ram", .str "acs:ram::1:root")] (.str "sts:AssumeRole")
          (some [("Bool", some [("acs:MFAPresent", .bool true)])])]⟩
        = some (false, none) ∧
      compareValues (.bool true) (.bool true) = some false ∧
      deepEqualPolicy
        ⟨"1", some [exStmt [("ram", .str "acs:ram::1:root")] (.arr [.str "sts:AssumeRole"])]⟩
        ⟨"1", some [exStmt [("ram", .str "acs:ram::1:root")] (.arr [.str "sts:AssumeRole"])]⟩
        = true ∧
      remainingSteps asciiUpper
        ⟨"1", some [exStmt [("ram", .str "acs:ram::1:root")] (.arr [.str "sts:AssumeRole"])]⟩
        ⟨"1", some [exStmt [("ram", .str "acs:ram::1:root")] (.arr [.str "sts:AssumeRole"])]⟩
        = some (false, none) :=
  ⟨rfl, rfl, rfl, rfl, rfl⟩

/-! ## Failure leaves the principal untouched (C20) -/

/-- C20: when `normalizePrincipal` returns a non-nil error, the map behind the
pointer is the map passed in; when it returns nil, the map has been replaced by
the non-nil map that the loop built. -/
theorem C20_normalizePrincipal_atomic (ToUpper : String → String)
    (principal after : PrincipalMap) (err : Option String)
    (h : normalizePrincipal ToUpper principal = some (after, err)) :
    (err ≠ none → after = principal) ∧
      (err = none → ∃ newPrincipal, after = some newPrincipal ∧
        normalizePrincipalRange ToUpper (principal.getD []) [] = some (.ok newPrincipal)) := by
  unfold normalizePrincipal at h
  split at h
  · simp at h
  · simp only [Option.some.injEq, Prod.mk.injEq] at h
    refine ⟨fun _ => h.1.symm, fun he => ?_⟩
    rw [he] at h
    simp at h
  · rename_i newPrincipal hr
    simp only [Option.some.injEq, Prod.mk.injEq] at h
    refine ⟨fun he => absurd h.2.symm he, fun _ => ⟨newPrincipal, h.1.symm, hr⟩⟩

/-- C20 at the principal ADMIN ↦ "acs:ram::1:root", on which `normalizePrincipal`
returns the invalid-key error. -/
theorem C20_normalizePrincipal_atomic_witness :
    normalizePrincipal asciiUpper (some [("ADMIN", .str "acs:ram::1:root")])
        = some (some [("ADMIN", .str "acs:ram::1:root")], some "Invalid principal key: ADMIN") ∧
      (some "Invalid principal key: ADMIN" ≠ none →
        (some [("ADMIN", Value.str "acs:ram::1:root")] : PrincipalMap)
          = some [("ADMIN", .str "acs:ram::1:root")]) :=
  ⟨rfl, (C20_normalizePrincipal_atomic asciiUpper (some [("ADMIN", .str "acs:ram::1:root")])
    (some [("ADMIN", .str "acs:ram::1:root")]) (some "Invalid principal key: ADMIN") rfl).1⟩

end RamPolicyEquivalence
